import Mathlib

/-!
Shallow embedding of `param_space.py` (and the `point_region` operation used by
`graph_traversal.py`).

Modelling conventions, used uniformly below:
* A Python `dict` with string keys is an association list `List (String × _)`
  with first-match lookup (`List.lookup`).  A real Python dict never holds two
  entries with the same key, so theorems about dict-shaped data carry a
  `Nodup` hypothesis on the key list where the proof needs it.
* `dict.update` (`d1.update(d2)`) is modelled by `d2 ++ d1`: every observation
  the library makes of a key dict is a lookup, and first-match lookup on
  `d2 ++ d1` returns `d2`'s entry when present and `d1`'s otherwise, exactly
  the lookup behaviour of the updated dict.
* A Python dict keyed by `Point` objects (which hash/compare via `Point.__eq__`)
  is an association list probed with `pointEq` (the embedding of
  `Point.__eq__`); assignment replaces the matching entry or appends.
* A raised exception is `none` (`Option`).  A generator that can raise while
  being consumed is modelled as the `Option` of its full list of yields.
* `float` exponentiation `**0.5` on a nonnegative integer is modelled as
  `Real.sqrt`; all values the claims mention (`2.0`, `0.0`) are exact.
-/

namespace ParamSpaceLib

variable {α β : Type}

/-- A Python dict with string keys, as an association list in insertion order. -/
abbrev Dict (α : Type) := List (String × α)

/-- The `spec` of a `ParamSpace`: dimension name to ordered category list,
in insertion order. -/
abbrev Spec (α : Type) := List (String × List α)

/-- `self.spec.keys()`: the dimension names in declared order. -/
def specKeys (s : Spec α) : List String := s.map Prod.fst

/-- Python `set(l1) == set(l2)` on two lists of hashable values. -/
def listSetEq [DecidableEq α] (l1 l2 : List α) : Bool :=
  l1.all (fun x => decide (x ∈ l2)) && l2.all (fun x => decide (x ∈ l1))

/-- A `Point`: its owning space and its key dict (which may carry extra
entries beyond the space's dimensions). -/
structure Point (α : Type) where
  pspace : Spec α
  key : Dict α
deriving DecidableEq

/-- `Point.validate_key`: every declared dimension must appear in the key with
a value drawn from that dimension's category list (extra entries are kept). -/
def validate_key [DecidableEq α] (s : Spec α) (key : Dict α) : Bool :=
  s.all fun nv =>
    match key.lookup nv.1 with
    | some v => decide (v ∈ nv.2)
    | none => false

/-- `ParamSpace.make_point` / the `Point` constructor: validates the key and
wraps it; a validation failure raises (`none`). -/
def make_point [DecidableEq α] (s : Spec α) (key : Dict α) : Option (Point α) :=
  if validate_key s key then some ⟨s, key⟩ else none

/-- `itertools.product(*categories)` with keys rebuilt by
`dict(zip(names, values))`: the list of key dicts in Cartesian order, the
last dimension varying fastest. -/
def cartKeys : Spec α → List (Dict α)
  | [] => [[]]
  | (n, cats) :: rest => cats.flatMap fun c => (cartKeys rest).map fun k => (n, c) :: k

/-- `ParamSpace.points()`: one `make_point` per Cartesian key.  For a real
spec (nodup names) every `make_point` succeeds, see `points_eq_map`. -/
def points [DecidableEq α] (s : Spec α) : List (Point α) :=
  (cartKeys s).filterMap (make_point s)

/-- `ParamSpace.__len__`: the product of the category-list lengths. -/
def spaceLen (s : Spec α) : Nat := s.foldl (fun acc nv => acc * nv.2.length) 1

/-- `ParamSpace.__eq__`: equal key sets and, per dimension of `self`,
set-equal category lists. -/
def spaceEq [DecidableEq α] (s1 s2 : Spec α) : Bool :=
  ((specKeys s1).all fun k => decide (k ∈ specKeys s2)) &&
  ((specKeys s2).all fun k => decide (k ∈ specKeys s1)) &&
  (s1.all fun nv =>
    match s2.lookup nv.1 with
    | some l2 => listSetEq nv.2 l2
    | none => false)

/-- `Point.__eq__`: spaces compare equal (`spaceEq`) and the key values agree
on every dimension of `self.pspace`.  (For a point of an equivalent validated
space the other key always holds the dimension; a missing entry, which in
Python would raise `KeyError`, is modelled as `false`.) -/
def pointEq [DecidableEq α] (p q : Point α) : Bool :=
  spaceEq p.pspace q.pspace &&
  (p.pspace.all fun nv =>
    match p.key.lookup nv.1, q.key.lookup nv.1 with
    | some v1, some v2 => decide (v1 = v2)
    | _, _ => false)

/-- A `Map`: its owning space and its point-keyed dict. -/
structure Map (α β : Type) where
  pspace : Spec α
  map : List (Point α × β)
deriving DecidableEq

/-- Lookup in a dict keyed by `Point`s (Python hashes and then compares the
stored key against the probe with `==`). -/
def mapLookup [DecidableEq α] (d : List (Point α × β)) (p : Point α) : Option β :=
  (d.find? fun e => pointEq e.1 p).map Prod.snd

/-- Assignment into a dict keyed by `Point`s: replace the entry whose key
compares equal, keeping the stored key object, else append. -/
def mapInsert [DecidableEq α] (d : List (Point α × β)) (p : Point α) (v : β) :
    List (Point α × β) :=
  if d.any fun e => pointEq e.1 p then
    d.map fun e => if pointEq e.1 p then (e.1, v) else e
  else d ++ [(p, v)]

/-- `Map.validate_map`: every point of the space's enumeration must be a key
of the dict (`p not in map` raises). -/
def validate_map [DecidableEq α] (s : Spec α) (d : List (Point α × β)) : Bool :=
  (points s).all fun p => d.any fun e => pointEq e.1 p

/-- `ParamSpace.make_map` / the `Map` constructor. -/
def make_map [DecidableEq α] (s : Spec α) (d : List (Point α × β)) : Option (Map α β) :=
  if validate_map s d then some ⟨s, d⟩ else none

/-- `Map.__getitem__`: reject (`none`) when the point's space does not compare
equal to the map's space, else look the point up. -/
def Map.get [DecidableEq α] (m : Map α β) (p : Point α) : Option β :=
  if spaceEq p.pspace m.pspace then mapLookup m.map p else none

/-- `Map.__setitem__`: same space check, then dict assignment. -/
def Map.set [DecidableEq α] (m : Map α β) (p : Point α) (v : β) : Option (Map α β) :=
  if spaceEq p.pspace m.pspace then some ⟨m.pspace, mapInsert m.map p v⟩ else none

/-- `unit_map(pspace, unit)`: one dict assignment per enumerated point. -/
def unit_map [DecidableEq α] (s : Spec α) (u : β) : Map α β :=
  ⟨s, (points s).foldl (fun d p => mapInsert d p u) []⟩

/-- `ParamSpace.union`: per key of the key union, `l1 or l2`, raising when both
sides are non-empty with set-unequal categories.  (Python iterates the union of
the key views, a hash set with unspecified order; the embedding fixes the order
as `self`'s keys followed by `other`'s new keys.  No claim depends on the
dimension order of the result.) -/
def union [DecidableEq α] (s1 s2 : Spec α) : Option (Spec α) :=
  if (specKeys s1 ++ (specKeys s2).filter fun k => decide (k ∉ specKeys s1)).all
      (fun k =>
        !(decide ((s1.lookup k).getD [] ≠ []) &&
          decide ((s2.lookup k).getD [] ≠ []) &&
          !listSetEq ((s1.lookup k).getD []) ((s2.lookup k).getD []))) then
    some ((specKeys s1 ++ (specKeys s2).filter fun k => decide (k ∉ specKeys s1)).map
      fun k =>
        (k, if ((s1.lookup k).getD []).isEmpty then (s2.lookup k).getD []
            else (s1.lookup k).getD []))
  else none

/-- `ParamSpace.intersection`: the shared keys, with `self`'s category list,
raising when a shared key has set-unequal lists. -/
def intersection [DecidableEq α] (s1 s2 : Spec α) : Option (Spec α) :=
  if ((specKeys s1).filter fun k => decide (k ∈ specKeys s2)).all
      (fun k => listSetEq ((s1.lookup k).getD []) ((s2.lookup k).getD [])) then
    some (((specKeys s1).filter fun k => decide (k ∈ specKeys s2)).map
      fun k => (k, (s1.lookup k).getD []))
  else none

/-- `ParamSpace.difference`: first re-validates via `intersection` (re-raising
its failure), then keeps `self`'s dimensions whose names `other` lacks. -/
def difference [DecidableEq α] (s1 s2 : Spec α) : Option (Spec α) :=
  if (intersection s1 s2).isSome then
    some (((specKeys s1).filter fun k => decide (k ∉ specKeys s2)).map
      fun k => (k, (s1.lookup k).getD []))
  else none

/-- `ParamSpace.subspace`: exactly the named dimensions, in the given name
order, with copies of their category lists; raises on an absent name. -/
def subspace [DecidableEq α] (s : Spec α) (names : List String) : Option (Spec α) :=
  if names.all fun n => decide (n ∈ specKeys s) then
    some (names.map fun n => (n, (s.lookup n).getD []))
  else none

/-- `Point.distance` without the final square root: the list of per-dimension
absolute index differences, `none` when the spaces do not compare equal or an
index lookup fails (`list.index` raising `ValueError`, or a `KeyError`). -/
def distDims [DecidableEq α] (p q : Point α) : Option (List Nat) :=
  if spaceEq p.pspace q.pspace then
    p.pspace.mapM fun nv => do
      let v1 ← p.key.lookup nv.1
      let v2 ← q.key.lookup nv.1
      let i1 ← nv.2.findIdx? fun y => decide (y = v1)
      let i2 ← nv.2.findIdx? fun y => decide (y = v2)
      pure ((i2 : Int) - (i1 : Int)).natAbs
  else none

/-- `Point.distance`: `sum(dist**2 for dist in dists)**0.5`. -/
noncomputable def distance [DecidableEq α] (p q : Point α) : Option ℝ :=
  (distDims p q).map fun ds => Real.sqrt ((ds.map fun d => (d : ℝ) ^ 2).sum)

/-- `contract_point(point2, pspace1)`: pick `point2`'s key values at
`pspace1`'s dimensions (a missing key raises) and build a point of `pspace1`
(which re-validates the values). -/
def contract_point [DecidableEq α] (p2 : Point α) (s1 : Spec α) : Option (Point α) := do
  let key ← s1.mapM fun nv => (p2.key.lookup nv.1).map fun v => (nv.1, v)
  make_point s1 key

/-- `expand_point(point1, pspace2)`: for each point of
`pspace2.difference(point1.pspace)`, the extra point's key updated by
`point1`'s key, made into a point of `pspace2`.  The whole generator is the
`Option` of its list of yields. -/
def expand_point [DecidableEq α] (p1 : Point α) (s2 : Spec α) : Option (List (Point α)) := do
  let extra ← difference s2 p1.pspace
  (points extra).mapM fun p => make_point s2 (p1.key ++ p.key)

/-- One `extra_map_dict[point1][extra_point] = v` step of `stack_map`'s
`defaultdict(dict)` build: update the inner dict under the outer key that
compares equal, else append a fresh singleton group. -/
def nestedInsert [DecidableEq α] (d : List (Point α × List (Point α × β)))
    (p1 ep : Point α) (v : β) : List (Point α × List (Point α × β)) :=
  if d.any fun e => pointEq e.1 p1 then
    d.map fun e => if pointEq e.1 p1 then (e.1, mapInsert e.2 ep v) else e
  else d ++ [(p1, mapInsert [] ep v)]

/-- One iteration of `stack_map`'s loop over the flat map's points:
`extra_map_dict[contract(p2,pspace1)][contract(p2,extra)] = map2[p2]`. -/
def stackStep [DecidableEq α] (m2 : Map α β) (extra s1 : Spec α)
    (acc : List (Point α × List (Point α × β))) (p2 : Point α) :
    Option (List (Point α × List (Point α × β))) := do
  let ep ← contract_point p2 extra
  let p1 ← contract_point p2 s1
  let v ← m2.get p2
  pure (nestedInsert acc p1 ep v)

/-- `stack_map(map2, pspace1)`: group the flat map by its contraction to
`pspace1`, the inner dicts keyed by the contraction to the extra space, then
wrap every group and the outer dict as validated `Map`s. -/
def stack_map [DecidableEq α] (m2 : Map α β) (s1 : Spec α) :
    Option (Map α (Map α β)) := do
  let extra ← difference m2.pspace s1
  let nested ← (points m2.pspace).foldlM (stackStep m2 extra s1) []
  let nested2 ← nested.mapM fun e => do
      let mm ← make_map extra e.2
      pure (e.1, mm)
  make_map s1 nested2

/-- One innermost assignment of `unstack_map`:
`new_map_dict[p2] = map1[p1][contract(p2, extra)]`. -/
def unstackCell [DecidableEq α] (m1 : Map α (Map α β)) (extra : Spec α)
    (p1 : Point α) (acc2 : List (Point α × β)) (p2 : Point α) :
    Option (List (Point α × β)) := do
  let ep ← contract_point p2 extra
  let inner ← m1.get p1
  let v ← inner.get ep
  pure (mapInsert acc2 p2 v)

/-- One iteration of `unstack_map`'s outer loop: every expansion of `p1` into
the target space is assigned. -/
def unstackStep [DecidableEq α] (m1 : Map α (Map α β)) (extra s2 : Spec α)
    (acc : List (Point α × β)) (p1 : Point α) : Option (List (Point α × β)) := do
  let qs ← expand_point p1 s2
  qs.foldlM (unstackCell m1 extra p1) acc

/-- `unstack_map(map1, pspace2)`: for every point of the nested map's space and
every expansion of it into `pspace2`, assign the inner map's value at the
expansion's contraction onto the extra space; then validate as a map over
`pspace2`. -/
def unstack_map [DecidableEq α] (m1 : Map α (Map α β)) (s2 : Spec α) :
    Option (Map α β) := do
  let extra ← difference s2 m1.pspace
  let d ← (points m1.pspace).foldlM (unstackStep m1 extra s2) []
  make_map s2 d

/-- The wrapped lifted function of a `MappedFunction`: `Function`'s space and
the plain function it applies to the argument values at a point. -/
structure Func (α β γ : Type) where
  pspace : Spec α
  f : List γ → β

/-- `MappedFunction` state with plain (pure) argument maps: the lifted
function, the argument maps, and the cache map whose cells are `none` for the
private `unevaluated` sentinel — a fresh object distinct from every legal
value, `None` included — and `some v` for a resolved value `v`. -/
structure MappedFunction (α β γ : Type) where
  func : Func α β γ
  arg_maps : List (Map α γ)
  cache : Map α (Option β)

/-- `MappedFunction.__init__(function, *arg_maps)`: the cache starts as
`unit_map(pspace, unevaluated)`. -/
def MappedFunction.init [DecidableEq α] (func : Func α β γ) (args : List (Map α γ)) :
    MappedFunction α β γ :=
  ⟨func, args, unit_map func.pspace none⟩

/-- `MappedFunction.__getitem__`: space check, then either serve the resolved
cache cell or evaluate the wrapped function on the argument maps at the point
and store the result.  Returns the value, the state after the call, and how
many times the wrapped function was invoked during the call. -/
def MappedFunction.get [DecidableEq α] (mf : MappedFunction α β γ) (p : Point α) :
    Option (β × MappedFunction α β γ × Nat) :=
  if spaceEq p.pspace mf.func.pspace then
    match mf.cache.get p with
    | some (some v) => some (v, mf, 0)
    | some none => do
        let args ← mf.arg_maps.mapM fun m => m.get p
        let v := mf.func.f args
        let cache2 ← mf.cache.set p (some v)
        pure (v, ⟨mf.func, mf.arg_maps, cache2⟩, 1)
    | none => none
  else none

/-- Modelled from the spec: `point_region(space, partialKey)` is code of this
repository missing from `src/` — `graph_traversal.py` imports it from
`param_space`, which does not define it.  Per the spec it "produces the lazy
sequence of every Point in `space` consistent with that partial assignment;
implemented as `expand_point` from the partial-key's own minimal subspace":
take the subspace of `space` on the partial key's own names, make the partial
key a point of it, and expand that point into `space`. -/
def point_region [DecidableEq α] (s : Spec α) (pkey : Dict α) :
    Option (List (Point α)) := do
  let sub ← subspace s (pkey.map Prod.fst)
  let p ← make_point sub pkey
  expand_point p s

/-! ### Basic lemmas about dict lookup and the Cartesian enumeration -/

variable {σ τ : Type}

theorem lookup_of_mem_nodup {l : List (String × σ)} (hn : (l.map Prod.fst).Nodup)
    {n : String} {v : σ} (h : (n, v) ∈ l) : l.lookup n = some v := by
  induction l with
  | nil => cases h
  | cons e t ih =>
    simp only [List.map_cons, List.nodup_cons] at hn
    rcases List.mem_cons.mp h with h | h
    · subst h; simp [List.lookup]
    · have hne : (n == e.1) = false := by
        refine beq_eq_false_iff_ne.mpr fun hEq => hn.1 ?_
        exact hEq ▸ List.mem_map.mpr ⟨(n, v), h, rfl⟩
      simpa [List.lookup, hne] using ih hn.2 h

theorem lookup_cons_ne {l : List (String × σ)} {e : String × σ} {n : String}
    (h : (n == e.1) = false) : (e :: l).lookup n = l.lookup n := by
  simp [List.lookup, h]

theorem lookup_isSome_iff {l : List (String × σ)} {n : String} :
    (l.lookup n).isSome = true ↔ n ∈ l.map Prod.fst := by
  induction l with
  | nil => simp [List.lookup]
  | cons e t ih =>
    by_cases h : e.1 = n
    · subst h; simp [List.lookup]
    · have hb : (n == e.1) = false := beq_eq_false_iff_ne.mpr (Ne.symm h)
      simp [List.lookup, hb, ih, Ne.symm h]

theorem lookup_eq_none_of_not_mem {l : List (String × σ)} {n : String}
    (h : n ∉ l.map Prod.fst) : l.lookup n = none := by
  cases hl : l.lookup n with
  | none => rfl
  | some v => exact absurd (lookup_isSome_iff.mp (by simp [hl])) h

theorem lookup_append_left {l1 l2 : List (String × σ)} {n : String}
    (h : n ∈ l1.map Prod.fst) : (l1 ++ l2).lookup n = l1.lookup n := by
  induction l1 with
  | nil => cases h
  | cons e t ih =>
    by_cases he : e.1 = n
    · subst he; simp [List.lookup]
    · have hb : (n == e.1) = false := beq_eq_false_iff_ne.mpr (Ne.symm he)
      simp only [List.map_cons, List.mem_cons] at h
      rcases h with h | h
      · exact absurd h.symm he
      · simpa [List.cons_append, lookup_cons_ne hb] using ih h

theorem lookup_append_right {l1 l2 : List (String × σ)} {n : String}
    (h : n ∉ l1.map Prod.fst) : (l1 ++ l2).lookup n = l2.lookup n := by
  induction l1 with
  | nil => rfl
  | cons e t ih =>
    simp only [List.map_cons, List.mem_cons, not_or] at h
    have hb : (n == e.1) = false := beq_eq_false_iff_ne.mpr h.1
    simpa [List.cons_append, lookup_cons_ne hb] using ih h.2

theorem mem_cartKeys_cons {n : String} {cats : List α} {t : Spec α} {k : Dict α} :
    k ∈ cartKeys ((n, cats) :: t) ↔
      ∃ c ∈ cats, ∃ kt ∈ cartKeys t, k = (n, c) :: kt := by
  simp only [cartKeys, List.mem_flatMap, List.mem_map]
  constructor
  · rintro ⟨c, hc, kt, hkt, rfl⟩
    exact ⟨c, hc, kt, hkt, rfl⟩
  · rintro ⟨c, hc, kt, hkt, rfl⟩
    exact ⟨c, hc, kt, hkt, rfl⟩

theorem cartKeys_names {s : Spec α} {k : Dict α} (h : k ∈ cartKeys s) :
    k.map Prod.fst = specKeys s := by
  induction s generalizing k with
  | nil =>
    simp only [cartKeys, List.mem_singleton] at h
    subst h; rfl
  | cons nv t ih =>
    obtain ⟨n, cats⟩ := nv
    obtain ⟨c, _, kt, hkt, rfl⟩ := mem_cartKeys_cons.mp h
    have h2 := ih hkt
    simp only [specKeys] at h2 ⊢
    simp [h2]

theorem cartKeys_lookup {s : Spec α} (hn : (specKeys s).Nodup) {k : Dict α}
    (hk : k ∈ cartKeys s) {nv : String × List α} (hmem : nv ∈ s) :
    ∃ c ∈ nv.2, k.lookup nv.1 = some c := by
  induction s generalizing k with
  | nil => cases hmem
  | cons hd t ih =>
    obtain ⟨n, cats⟩ := hd
    obtain ⟨c, hc, kt, hkt, rfl⟩ := mem_cartKeys_cons.mp hk
    simp only [specKeys, List.map_cons, List.nodup_cons] at hn
    rcases List.mem_cons.mp hmem with h | h
    · subst h
      exact ⟨c, hc, by simp [List.lookup]⟩
    · have hne : (nv.1 == n) = false := by
        refine beq_eq_false_iff_ne.mpr fun hEq => hn.1 ?_
        exact hEq ▸ List.mem_map.mpr ⟨nv, h, rfl⟩
      obtain ⟨c2, hc2, hl⟩ := ih hn.2 hkt h
      exact ⟨c2, hc2, by rw [lookup_cons_ne hne]; exact hl⟩

theorem validate_key_cartKeys [DecidableEq α] {s : Spec α}
    (hn : (specKeys s).Nodup) {k : Dict α} (hk : k ∈ cartKeys s) :
    validate_key s k = true := by
  simp only [validate_key, List.all_eq_true]
  intro nv hmem
  obtain ⟨c, hc, hl⟩ := cartKeys_lookup hn hk hmem
  simp [hl, hc]

theorem make_point_cartKeys [DecidableEq α] {s : Spec α}
    (hn : (specKeys s).Nodup) {k : Dict α} (hk : k ∈ cartKeys s) :
    make_point s k = some ⟨s, k⟩ := by
  simp [make_point, validate_key_cartKeys hn hk]

theorem filterMap_eq_map_of_some {l : List σ} {f : σ → Option τ} {g : σ → τ}
    (h : ∀ x ∈ l, f x = some (g x)) : l.filterMap f = l.map g := by
  induction l with
  | nil => rfl
  | cons a t ih =>
    rw [List.filterMap_cons, h a (List.mem_cons_self a t), List.map_cons,
      ih fun x hx => h x (List.mem_cons_of_mem a hx)]

theorem points_eq_map [DecidableEq α] {s : Spec α} (hn : (specKeys s).Nodup) :
    points s = (cartKeys s).map fun k => Point.mk s k :=
  filterMap_eq_map_of_some fun _ hk => make_point_cartKeys hn hk

theorem spaceLen_eq_prod (s : Spec α) :
    spaceLen s = (s.map fun nv => nv.2.length).prod := by
  unfold spaceLen
  rw [List.prod_eq_foldl, ← List.foldl_map]

theorem cartKeys_length (s : Spec α) : (cartKeys s).length = spaceLen s := by
  rw [spaceLen_eq_prod]
  induction s with
  | nil => simp [cartKeys]
  | cons nv t ih =>
    obtain ⟨n, cats⟩ := nv
    simp only [cartKeys, List.length_flatMap, Function.comp_def, List.length_map, ih,
      List.map_cons, List.prod_cons]
    simp [List.map_const', List.sum_replicate, smul_eq_mul, Nat.mul_comm]

theorem spaceEq_refl [DecidableEq α] {s : Spec α} (hn : (specKeys s).Nodup) :
    spaceEq s s = true := by
  simp only [spaceEq, Bool.and_eq_true, List.all_eq_true]
  refine ⟨⟨fun k hk => by simpa using hk, fun k hk => by simpa using hk⟩, ?_⟩
  intro nv hmem
  rw [lookup_of_mem_nodup hn hmem]
  simp [listSetEq, List.all_eq_true]

theorem validate_key_lookup [DecidableEq α] {s : Spec α} {k : Dict α}
    (hv : validate_key s k = true) {nv : String × List α} (hmem : nv ∈ s) :
    ∃ v ∈ nv.2, k.lookup nv.1 = some v := by
  simp only [validate_key, List.all_eq_true] at hv
  have := hv nv hmem
  cases hl : k.lookup nv.1 with
  | none => rw [hl] at this; simp at this
  | some v => rw [hl] at this; simp at this; exact ⟨v, this, rfl⟩

theorem pointEq_refl [DecidableEq α] {s : Spec α} {k : Dict α}
    (hn : (specKeys s).Nodup) (hv : validate_key s k = true) :
    pointEq ⟨s, k⟩ ⟨s, k⟩ = true := by
  simp only [pointEq, Bool.and_eq_true, List.all_eq_true]
  refine ⟨spaceEq_refl hn, fun nv hmem => ?_⟩
  obtain ⟨v, _, hl⟩ := validate_key_lookup hv hmem
  simp [hl]

theorem cartKeys_agree_ne [DecidableEq α] {s : Spec α} (hn : (specKeys s).Nodup)
    {k k2 : Dict α} (hk : k ∈ cartKeys s) (hk2 : k2 ∈ cartKeys s) (hne : k ≠ k2) :
    (s.all fun nv =>
      match k.lookup nv.1, k2.lookup nv.1 with
      | some v1, some v2 => decide (v1 = v2)
      | _, _ => false) = false := by
  induction s generalizing k k2 with
  | nil =>
    simp only [cartKeys, List.mem_singleton] at hk hk2
    exact absurd (hk.trans hk2.symm) hne
  | cons hd t ih =>
    obtain ⟨n, cats⟩ := hd
    obtain ⟨c, hc, kt, hkt, rfl⟩ := mem_cartKeys_cons.mp hk
    obtain ⟨c2, hc2, kt2, hkt2, rfl⟩ := mem_cartKeys_cons.mp hk2
    simp only [specKeys, List.map_cons, List.nodup_cons] at hn
    by_cases hcc : c = c2
    · subst hcc
      have hkne : kt ≠ kt2 := fun h => hne (h ▸ rfl)
      have htail := ih hn.2 hkt hkt2 hkne
      rw [List.all_eq_false] at htail ⊢
      obtain ⟨nv, hnv, hfalse⟩ := htail
      refine ⟨nv, List.mem_cons_of_mem _ hnv, ?_⟩
      have hne1 : (nv.1 == n) = false := by
        refine beq_eq_false_iff_ne.mpr fun hEq => hn.1 ?_
        exact hEq ▸ List.mem_map.mpr ⟨nv, hnv, rfl⟩
      rw [lookup_cons_ne hne1, lookup_cons_ne hne1]
      exact hfalse
    · rw [List.all_eq_false]
      refine ⟨(n, cats), List.mem_cons_self _ _, ?_⟩
      simp [List.lookup, hcc]

theorem pointEq_cartKeys_ne [DecidableEq α] {s : Spec α} (hn : (specKeys s).Nodup)
    {k k2 : Dict α} (hk : k ∈ cartKeys s) (hk2 : k2 ∈ cartKeys s) (hne : k ≠ k2) :
    pointEq ⟨s, k⟩ ⟨s, k2⟩ = false := by
  simp only [pointEq]
  rw [cartKeys_agree_ne hn hk hk2 hne, Bool.and_false]

theorem cartKeys_nodup [DecidableEq α] {s : Spec α}
    (hcats : ∀ nv ∈ s, nv.2.Nodup) : (cartKeys s).Nodup := by
  induction s with
  | nil => simp [cartKeys]
  | cons hd t ih =>
    obtain ⟨n, cats⟩ := hd
    have hcn : cats.Nodup := hcats (n, cats) (List.mem_cons_self _ _)
    have ht : (cartKeys t).Nodup :=
      ih fun nv hnv => hcats nv (List.mem_cons_of_mem _ hnv)
    simp only [cartKeys]
    rw [List.nodup_flatMap]
    constructor
    · intro c _
      exact ht.map fun k1 k2 h => by injection h
    · refine List.Pairwise.imp ?_ hcn
      intro c1 c2 hne x h1 h2
      obtain ⟨k1, _, rfl⟩ := List.mem_map.mp h1
      obtain ⟨k2, _, heq⟩ := List.mem_map.mp h2
      injection heq with h3 _
      injection h3 with _ h5
      exact hne h5.symm

theorem lookup_mem {l : List (String × σ)} {n : String} {v : σ}
    (h : l.lookup n = some v) : (n, v) ∈ l := by
  induction l with
  | nil => simp [List.lookup] at h
  | cons e t ih =>
    by_cases hb : (n == e.1) = true
    · have hn := eq_of_beq hb
      simp only [List.lookup, hb] at h
      obtain ⟨k1, v1⟩ := e
      cases h
      exact hn ▸ List.mem_cons_self _ _
    · rw [lookup_cons_ne (Bool.eq_false_iff.mpr hb)] at h
      exact List.mem_cons_of_mem _ (ih h)

theorem lookup_map_graph {l : List String} {f : String → σ} {n : String}
    (h : n ∈ l) : (l.map fun k => (k, f k)).lookup n = some (f n) := by
  induction l with
  | nil => cases h
  | cons a t ih =>
    by_cases ha : n = a
    · subst ha; simp [List.lookup]
    · have hb : (n == a) = false := beq_eq_false_iff_ne.mpr ha
      rcases List.mem_cons.mp h with h | h
      · exact absurd h ha
      · rw [List.map_cons, lookup_cons_ne (e := (a, f a)) hb]
        exact ih h

theorem listSetEq_iff [DecidableEq α] {l1 l2 : List α} :
    listSetEq l1 l2 = true ↔ ∀ x, x ∈ l1 ↔ x ∈ l2 := by
  simp only [listSetEq, Bool.and_eq_true, List.all_eq_true, decide_eq_true_eq]
  constructor
  · rintro ⟨h1, h2⟩ x
    exact ⟨h1 x, h2 x⟩
  · intro h
    exact ⟨fun x hx => (h x).mp hx, fun x hx => (h x).mpr hx⟩

theorem spaceEq_iff [DecidableEq α] {s1 s2 : Spec α} :
    spaceEq s1 s2 = true ↔
      (∀ n ∈ specKeys s1, n ∈ specKeys s2) ∧
      (∀ n ∈ specKeys s2, n ∈ specKeys s1) ∧
      ∀ nv ∈ s1, ∃ l2, s2.lookup nv.1 = some l2 ∧ listSetEq nv.2 l2 = true := by
  simp only [spaceEq, Bool.and_eq_true, List.all_eq_true, decide_eq_true_eq]
  constructor
  · rintro ⟨⟨h1, h2⟩, h3⟩
    refine ⟨h1, h2, fun nv hnv => ?_⟩
    have := h3 nv hnv
    cases hl : s2.lookup nv.1 with
    | none => rw [hl] at this; simp at this
    | some l2 => rw [hl] at this; exact ⟨l2, rfl, this⟩
  · rintro ⟨h1, h2, h3⟩
    refine ⟨⟨h1, h2⟩, fun nv hnv => ?_⟩
    obtain ⟨l2, hl, hs⟩ := h3 nv hnv
    rw [hl]
    exact hs

theorem pointEq_iff [DecidableEq α] {p q : Point α} :
    pointEq p q = true ↔
      spaceEq p.pspace q.pspace = true ∧
      ∀ nv ∈ p.pspace, ∃ v, p.key.lookup nv.1 = some v ∧
        q.key.lookup nv.1 = some v := by
  simp only [pointEq, Bool.and_eq_true, List.all_eq_true]
  constructor
  · rintro ⟨h1, h2⟩
    refine ⟨h1, fun nv hnv => ?_⟩
    have := h2 nv hnv
    cases hl1 : p.key.lookup nv.1 with
    | none => rw [hl1] at this; simp at this
    | some v1 =>
      cases hl2 : q.key.lookup nv.1 with
      | none => rw [hl1, hl2] at this; simp at this
      | some v2 =>
        rw [hl1, hl2] at this
        simp only [decide_eq_true_eq] at this
        exact ⟨v1, rfl, by rw [this]⟩
  · rintro ⟨h1, h2⟩
    refine ⟨h1, fun nv hnv => ?_⟩
    obtain ⟨v, hl1, hl2⟩ := h2 nv hnv
    rw [hl1, hl2]
    simp

theorem listSetEq_symm [DecidableEq α] {l1 l2 : List α}
    (h : listSetEq l1 l2 = true) : listSetEq l2 l1 = true := by
  rw [listSetEq_iff] at h ⊢
  exact fun x => (h x).symm

theorem listSetEq_trans [DecidableEq α] {l1 l2 l3 : List α}
    (h12 : listSetEq l1 l2 = true) (h23 : listSetEq l2 l3 = true) :
    listSetEq l1 l3 = true := by
  rw [listSetEq_iff] at h12 h23 ⊢
  exact fun x => (h12 x).trans (h23 x)

theorem spaceEq_symm [DecidableEq α] {s1 s2 : Spec α}
    (h : spaceEq s1 s2 = true) (hn2 : (specKeys s2).Nodup) :
    spaceEq s2 s1 = true := by
  rw [spaceEq_iff] at h ⊢
  obtain ⟨h1, h2, h3⟩ := h
  refine ⟨h2, h1, fun nv hnv => ?_⟩
  have hk : nv.1 ∈ specKeys s1 := h2 nv.1 (List.mem_map.mpr ⟨nv, hnv, rfl⟩)
  obtain ⟨l1, hl1⟩ := Option.isSome_iff_exists.mp (lookup_isSome_iff.mpr hk)
  obtain ⟨l2, hl2, hs⟩ := h3 (nv.1, l1) (lookup_mem hl1)
  rw [lookup_of_mem_nodup hn2 hnv] at hl2
  cases hl2
  exact ⟨l1, hl1, listSetEq_symm hs⟩

theorem spaceEq_trans [DecidableEq α] {s1 s2 s3 : Spec α}
    (h12 : spaceEq s1 s2 = true) (h23 : spaceEq s2 s3 = true) :
    spaceEq s1 s3 = true := by
  rw [spaceEq_iff] at h12 h23 ⊢
  obtain ⟨a12, b12, c12⟩ := h12
  obtain ⟨a23, b23, c23⟩ := h23
  refine ⟨fun n hn => a23 n (a12 n hn), fun n hn => b12 n (b23 n hn),
    fun nv hnv => ?_⟩
  obtain ⟨l2, hl2, hs12⟩ := c12 nv hnv
  obtain ⟨l3, hl3, hs23⟩ := c23 (nv.1, l2) (lookup_mem hl2)
  exact ⟨l3, hl3, listSetEq_trans hs12 hs23⟩

theorem pointEq_trans [DecidableEq α] {p1 p2 p3 : Point α}
    (h12 : pointEq p1 p2 = true) (h23 : pointEq p2 p3 = true) :
    pointEq p1 p3 = true := by
  rw [pointEq_iff] at h12 h23 ⊢
  obtain ⟨hs12, hv12⟩ := h12
  obtain ⟨hs23, hv23⟩ := h23
  refine ⟨spaceEq_trans hs12 hs23, fun nv hnv => ?_⟩
  obtain ⟨v, hl1, hl2⟩ := hv12 nv hnv
  have hk2 : nv.1 ∈ specKeys p2.pspace :=
    (spaceEq_iff.mp hs12).1 nv.1 (List.mem_map.mpr ⟨nv, hnv, rfl⟩)
  obtain ⟨nv2, hnv2, hfst⟩ := List.mem_map.mp hk2
  obtain ⟨v2, hl2b, hl3⟩ := hv23 nv2 hnv2
  rw [hfst] at hl2b hl3
  rw [hl2] at hl2b
  cases hl2b
  exact ⟨v, hl1, hl3⟩

theorem pointEq_symm [DecidableEq α] {p1 p2 : Point α}
    (h : pointEq p1 p2 = true) (hn2 : (specKeys p2.pspace).Nodup) :
    pointEq p2 p1 = true := by
  rw [pointEq_iff] at h ⊢
  obtain ⟨hs, hv⟩ := h
  refine ⟨spaceEq_symm hs hn2, fun nv hnv => ?_⟩
  have hk1 : nv.1 ∈ specKeys p1.pspace :=
    (spaceEq_iff.mp hs).2.1 nv.1 (List.mem_map.mpr ⟨nv, hnv, rfl⟩)
  obtain ⟨nv1, hnv1, hfst⟩ := List.mem_map.mp hk1
  obtain ⟨v, hl1, hl2⟩ := hv nv1 hnv1
  rw [hfst] at hl1 hl2
  exact ⟨v, hl2, hl1⟩

theorem cartKeys_complete {s : Spec α} (hn : (specKeys s).Nodup) {K : Dict α}
    (h : ∀ nv ∈ s, ∃ v ∈ nv.2, K.lookup nv.1 = some v) :
    ∃ k ∈ cartKeys s, ∀ nv ∈ s, k.lookup nv.1 = K.lookup nv.1 := by
  induction s with
  | nil => exact ⟨[], by simp [cartKeys], fun nv hnv => by cases hnv⟩
  | cons hd t ih =>
    obtain ⟨n, cats⟩ := hd
    simp only [specKeys, List.map_cons, List.nodup_cons] at hn
    obtain ⟨c, hc, hlc⟩ := h (n, cats) (List.mem_cons_self _ _)
    obtain ⟨kt, hkt, hmatch⟩ := ih hn.2 fun nv hnv => h nv (List.mem_cons_of_mem _ hnv)
    refine ⟨(n, c) :: kt, mem_cartKeys_cons.mpr ⟨c, hc, kt, hkt, rfl⟩, ?_⟩
    intro nv hnv
    rcases List.mem_cons.mp hnv with hEq | hmem
    · subst hEq
      simp [List.lookup, hlc]
    · have hne : (nv.1 == n) = false := by
        refine beq_eq_false_iff_ne.mpr fun hEq => hn.1 ?_
        exact hEq ▸ List.mem_map.mpr ⟨nv, hmem, rfl⟩
      rw [lookup_cons_ne hne]
      exact hmatch nv hmem

/-! ### Claim C1 -/

/-- C1, counterexample: the claim promises that `points()` always yields
`∏ nᵢ` pairwise-distinct Points.  For the legal Space `{'x': [0, 0]}`
(`validate_spec` accepts duplicate categories) `points()` yields 2 points that
are equal under `Point.__eq__`, so they are not distinct. -/
theorem C1_counterexample :
    (points ([("x", [0, 0])] : Spec Nat)).length = 2 ∧
    pointEq ((points ([("x", [0, 0])] : Spec Nat)).getD 0 ⟨[], []⟩)
      ((points ([("x", [0, 0])] : Spec Nat)).getD 1 ⟨[], []⟩) = true := by
  decide

/-- C1, amended: for every Space whose dimension names are distinct (a dict
invariant) and whose category lists are duplicate-free, `points()` yields
exactly `∏ nᵢ` points (also the value of `len()`), pairwise distinct under
`Point.__eq__`, each owned by the Space and assigning to every dimension one
value from that dimension's category list; the sequence is the Cartesian
product of the dimensions in declared insertion order. -/
theorem C1_points_enumeration [DecidableEq α] {s : Spec α}
    (hn : (specKeys s).Nodup) (hcats : ∀ nv ∈ s, nv.2.Nodup) :
    (points s).length = (s.map fun nv => nv.2.length).prod ∧
    (points s).length = spaceLen s ∧
    (points s).Pairwise (fun p q => pointEq p q = false) ∧
    points s = (cartKeys s).map (fun k => Point.mk s k) ∧
    ∀ p ∈ points s, p.pspace = s ∧
      ∀ nv ∈ s, ∃ c ∈ nv.2, p.key.lookup nv.1 = some c := by
  have hmap := points_eq_map (α := α) hn
  refine ⟨?_, ?_, ?_, hmap, ?_⟩
  · rw [hmap, List.length_map, cartKeys_length, spaceLen_eq_prod]
  · rw [hmap, List.length_map, cartKeys_length]
  · rw [hmap]
    refine List.pairwise_map.mpr ?_
    have hnd : (cartKeys s).Nodup := cartKeys_nodup hcats
    have := (List.Pairwise.and_mem).mp hnd
    refine this.imp ?_
    rintro k k2 ⟨hk, hk2, hne⟩
    exact pointEq_cartKeys_ne hn hk hk2 hne
  · intro p hp
    rw [hmap] at hp
    obtain ⟨k, hk, rfl⟩ := List.mem_map.mp hp
    exact ⟨rfl, fun nv hnv => cartKeys_lookup hn hk hnv⟩

/-- C1 witness: the amended enumeration theorem evaluated on the concrete
Space `{'x': [0, 1], 'y': [5]}`. -/
theorem C1_points_enumeration_witness :
    ((specKeys ([("x", [0, 1]), ("y", [5])] : Spec Nat)).Nodup ∧
      ∀ nv ∈ ([("x", [0, 1]), ("y", [5])] : Spec Nat), nv.2.Nodup) ∧
    ((points ([("x", [0, 1]), ("y", [5])] : Spec Nat)).length =
        (([("x", [0, 1]), ("y", [5])] : Spec Nat).map fun nv => nv.2.length).prod ∧
      (points ([("x", [0, 1]), ("y", [5])] : Spec Nat)).length =
        spaceLen ([("x", [0, 1]), ("y", [5])] : Spec Nat) ∧
      (points ([("x", [0, 1]), ("y", [5])] : Spec Nat)).Pairwise
        (fun p q => pointEq p q = false) ∧
      points ([("x", [0, 1]), ("y", [5])] : Spec Nat) =
        (cartKeys ([("x", [0, 1]), ("y", [5])] : Spec Nat)).map
          (fun k => Point.mk ([("x", [0, 1]), ("y", [5])] : Spec Nat) k) ∧
      ∀ p ∈ points ([("x", [0, 1]), ("y", [5])] : Spec Nat),
        p.pspace = ([("x", [0, 1]), ("y", [5])] : Spec Nat) ∧
        ∀ nv ∈ ([("x", [0, 1]), ("y", [5])] : Spec Nat),
          ∃ c ∈ nv.2, p.key.lookup nv.1 = some c) :=
  ⟨⟨by decide, by decide⟩, C1_points_enumeration (by decide) (by decide)⟩

/-! ### Claims C6 and C10 -/

/-- C6: `A.union(B)` raises exactly when some shared dimension name has
non-empty, set-unequal category lists on both sides; when one side's list for
a shared name is empty the union takes the other side's categories; and
`Space{'x':[1,2]}.union(Space{'x':[3,4]})` fails. -/
theorem C6_union_category_conflict [DecidableEq α] {s1 s2 : Spec α} :
    (union s1 s2 = none ↔
      ∃ k l1 l2, s1.lookup k = some l1 ∧ s2.lookup k = some l2 ∧
        l1 ≠ [] ∧ l2 ≠ [] ∧ listSetEq l1 l2 = false) ∧
    (∀ u, union s1 s2 = some u → ∀ k l2, s1.lookup k = some [] →
      s2.lookup k = some l2 → u.lookup k = some l2) ∧
    union [("x", [1, 2])] [("x", ([3, 4] : List Nat))] = none := by
  refine ⟨?_, ?_, by decide⟩
  · unfold union
    constructor
    · intro hnone
      by_cases hall : ((specKeys s1 ++ (specKeys s2).filter fun k =>
            decide (k ∉ specKeys s1)).all
          (fun k =>
            !(decide ((s1.lookup k).getD [] ≠ []) &&
              decide ((s2.lookup k).getD [] ≠ []) &&
              !listSetEq ((s1.lookup k).getD []) ((s2.lookup k).getD [])))) = true
      · rw [if_pos hall] at hnone; cases hnone
      · have hall2 := Bool.eq_false_iff.mpr hall
        rw [List.all_eq_false] at hall2
        obtain ⟨k, _, hcond⟩ := hall2
        simp only [Bool.not_eq_true, Bool.not_eq_false'] at hcond
        simp only [Bool.and_eq_true, decide_eq_true_eq, Bool.not_eq_true'] at hcond
        obtain ⟨⟨hne1, hne2⟩, hsne⟩ := hcond
        cases hl1 : s1.lookup k with
        | none => rw [hl1] at hne1; simp at hne1
        | some l1 =>
          cases hl2 : s2.lookup k with
          | none => rw [hl2] at hne2; simp at hne2
          | some l2 =>
            rw [hl1] at hne1 hsne
            rw [hl2] at hne2 hsne
            exact ⟨k, l1, l2, hl1, hl2, hne1, hne2, hsne⟩
    · rintro ⟨k, l1, l2, hl1, hl2, hne1, hne2, hsne⟩
      have hmem : k ∈ specKeys s1 ++ (specKeys s2).filter fun k =>
          decide (k ∉ specKeys s1) :=
        List.mem_append_left _ (lookup_isSome_iff.mp (by simp [hl1]))
      rw [if_neg]
      intro hall
      rw [List.all_eq_true] at hall
      have := hall k hmem
      simp only [hl1, hl2, Option.getD_some, Bool.not_eq_true', Bool.and_eq_false_iff,
        decide_eq_false_iff_not, not_not, Bool.not_eq_false'] at this
      rcases this with (h | h) | h
      · exact hne1 h
      · exact hne2 h
      · rw [hsne] at h; cases h
  · intro u hu k l2 hl1 hl2
    unfold union at hu
    by_cases hall : ((specKeys s1 ++ (specKeys s2).filter fun k =>
          decide (k ∉ specKeys s1)).all
        (fun k =>
          !(decide ((s1.lookup k).getD [] ≠ []) &&
            decide ((s2.lookup k).getD [] ≠ []) &&
            !listSetEq ((s1.lookup k).getD []) ((s2.lookup k).getD [])))) = true
    · rw [if_pos hall] at hu
      cases hu
      have hmem : k ∈ specKeys s1 ++ (specKeys s2).filter fun k =>
          decide (k ∉ specKeys s1) :=
        List.mem_append_left _ (lookup_isSome_iff.mp (by simp [hl1]))
      rw [lookup_map_graph hmem]
      simp [hl1, hl2]
    · rw [if_neg hall] at hu
      cases hu

/-- C6 witness: the empty-side rule of the union theorem applied to
`Space{'x':[]}.union(Space{'x':[3,4]})`, whose result takes the right
operand's categories. -/
theorem C6_union_category_conflict_witness :
    union [("x", ([] : List Nat))] [("x", [3, 4])] = some [("x", [3, 4])] ∧
    ([("x", ([3, 4] : List Nat))] : Spec Nat).lookup "x" = some [3, 4] :=
  ⟨by decide,
    (@C6_union_category_conflict Nat _ [("x", [])] [("x", [3, 4])]).2.1
      [("x", [3, 4])] (by decide) "x" [3, 4] (by decide) (by decide)⟩

/-- C10: when a dimension name is shared and the left operand's category list
for it is non-empty, both `A.union(B)` and `A.intersection(B)` keep the left
operand's category list exactly, element for element in its declared order. -/
theorem C10_left_operand_categories [DecidableEq α] {s1 s2 : Spec α}
    {k : String} {l1 : List α} (h1 : s1.lookup k = some l1) (hne : l1 ≠ [])
    (h2 : k ∈ specKeys s2) :
    (∀ u, union s1 s2 = some u → u.lookup k = some l1) ∧
    (∀ i, intersection s1 s2 = some i → i.lookup k = some l1) := by
  have hk1 : k ∈ specKeys s1 := lookup_isSome_iff.mp (by simp [h1])
  constructor
  · intro u hu
    unfold union at hu
    by_cases hall : ((specKeys s1 ++ (specKeys s2).filter fun k =>
          decide (k ∉ specKeys s1)).all
        (fun k =>
          !(decide ((s1.lookup k).getD [] ≠ []) &&
            decide ((s2.lookup k).getD [] ≠ []) &&
            !listSetEq ((s1.lookup k).getD []) ((s2.lookup k).getD [])))) = true
    · rw [if_pos hall] at hu
      cases hu
      rw [lookup_map_graph (List.mem_append_left _ hk1)]
      have : l1.isEmpty = false := by
        cases l1 with
        | nil => exact absurd rfl hne
        | cons a t => rfl
      simp [h1, this]
    · rw [if_neg hall] at hu
      cases hu
  · intro i hi
    unfold intersection at hi
    by_cases hall : (((specKeys s1).filter fun k => decide (k ∈ specKeys s2)).all
        (fun k => listSetEq ((s1.lookup k).getD []) ((s2.lookup k).getD []))) = true
    · rw [if_pos hall] at hi
      cases hi
      have hmem : k ∈ (specKeys s1).filter fun k => decide (k ∈ specKeys s2) :=
        List.mem_filter.mpr ⟨hk1, by simpa using h2⟩
      rw [lookup_map_graph hmem]
      simp [h1]
    · rw [if_neg hall] at hi
      cases hi

/-- C10 witness: union and intersection of `{'x': [2,1]}` with the set-equal
but differently ordered `{'x': [1,2]}` keep the left operand's order `[2,1]`. -/
theorem C10_left_operand_categories_witness :
    (([("x", [2, 1])] : Spec Nat).lookup "x" = some [2, 1] ∧
      ([2, 1] : List Nat) ≠ [] ∧ "x" ∈ specKeys ([("x", [1, 2])] : Spec Nat)) ∧
    ((∀ u, union [("x", [2, 1])] [("x", ([1, 2] : List Nat))] = some u →
        u.lookup "x" = some [2, 1]) ∧
      (∀ i, intersection [("x", [2, 1])] [("x", ([1, 2] : List Nat))] = some i →
        i.lookup "x" = some [2, 1])) :=
  ⟨⟨by decide, by decide, by decide⟩,
    C10_left_operand_categories (by decide) (by decide) (by decide)⟩

/-! ### Claims C2 and C7 -/

/-- C2, counterexample: the claim says a lookup with a Point owned by a
different Space object is rejected even when the Spaces are equivalent.  A Map
over `{'x': [1,2]}` accepts a Point of the independently constructed,
distinct (different category order, so certainly not the same object) but
equivalent Space `{'x': [2,1]}`: `get` returns the stored value and `set`
succeeds instead of raising. -/
theorem C2_counterexample :
    (⟨[("x", [2, 1])], [("x", 1)]⟩ : Point Nat).pspace ≠
      (Map.mk [("x", [1, 2])]
        [(⟨[("x", [1, 2])], [("x", 1)]⟩, 10), (⟨[("x", [1, 2])], [("x", 2)]⟩, 20)] :
          Map Nat Nat).pspace ∧
    spaceEq ([("x", [2, 1])] : Spec Nat) [("x", [1, 2])] = true ∧
    (Map.mk [("x", [1, 2])]
        [(⟨[("x", [1, 2])], [("x", 1)]⟩, 10), (⟨[("x", [1, 2])], [("x", 2)]⟩, 20)] :
          Map Nat Nat).get ⟨[("x", [2, 1])], [("x", 1)]⟩ = some 10 ∧
    (Map.mk [("x", [1, 2])]
        [(⟨[("x", [1, 2])], [("x", 1)]⟩, 10), (⟨[("x", [1, 2])], [("x", 2)]⟩, 20)] :
          Map Nat Nat).set ⟨[("x", [2, 1])], [("x", 1)]⟩ 99 =
      some (Map.mk [("x", [1, 2])]
        [(⟨[("x", [1, 2])], [("x", 1)]⟩, 99), (⟨[("x", [1, 2])], [("x", 2)]⟩, 20)]) := by
  refine ⟨?_, by decide, ?_, ?_⟩
  · intro h
    simp only [Map.mk] at h
    cases h
  · rfl
  · rfl

/-- C2, amended: `Map` get and set reject a Point exactly when its owning
Space does not compare equal (`ParamSpace.__eq__`, i.e. equivalence: same
names, set-equal categories) to the Map's Space; a Point of an
equivalent-but-distinct Space is accepted — set always succeeds, and get
returns a value whenever the Map is total and the Point validated. -/
theorem C2_map_space_check [DecidableEq α] {m : Map α β} {p : Point α}
    (hn : (specKeys m.pspace).Nodup) :
    (spaceEq p.pspace m.pspace = false → m.get p = none ∧ ∀ v, m.set p v = none) ∧
    (spaceEq p.pspace m.pspace = true →
      (∀ v, ∃ m2, m.set p v = some m2) ∧
      (validate_map m.pspace m.map = true → validate_key p.pspace p.key = true →
        ∃ v, m.get p = some v)) := by
  constructor
  · intro h
    refine ⟨by simp [Map.get, h], fun v => by simp [Map.set, h]⟩
  · intro h
    refine ⟨fun v => ⟨⟨m.pspace, mapInsert m.map p v⟩, by simp [Map.set, h]⟩,
      fun hm hv => ?_⟩
    have hfeed : ∀ nv ∈ m.pspace, ∃ v ∈ nv.2, p.key.lookup nv.1 = some v := by
      intro nv hnv
      have hk : nv.1 ∈ specKeys p.pspace :=
        (spaceEq_iff.mp h).2.1 nv.1 (List.mem_map.mpr ⟨nv, hnv, rfl⟩)
      obtain ⟨nv2, hnv2, hfst⟩ := List.mem_map.mp hk
      obtain ⟨v, hvmem, hvl⟩ := validate_key_lookup hv hnv2
      obtain ⟨l2, hl2, hset⟩ := (spaceEq_iff.mp h).2.2 nv2 hnv2
      rw [hfst] at hvl hl2
      rw [lookup_of_mem_nodup hn hnv] at hl2
      cases hl2
      exact ⟨v, (listSetEq_iff.mp hset v).mp hvmem, hvl⟩
    obtain ⟨k, hk, hkl⟩ := cartKeys_complete hn hfeed
    have hq : (⟨m.pspace, k⟩ : Point α) ∈ points m.pspace := by
      rw [points_eq_map hn]
      exact List.mem_map.mpr ⟨k, hk, rfl⟩
    simp only [validate_map, List.all_eq_true] at hm
    have hany := hm _ hq
    rw [List.any_eq_true] at hany
    obtain ⟨e, he, hpe⟩ := hany
    have hqp : pointEq (⟨m.pspace, k⟩ : Point α) p = true := by
      rw [pointEq_iff]
      refine ⟨spaceEq_symm h hn, fun nv hnv => ?_⟩
      obtain ⟨v, hvmem, hvl⟩ := hfeed nv hnv
      exact ⟨v, (hkl nv hnv).trans hvl, hvl⟩
    have hep : pointEq e.1 p = true := pointEq_trans hpe hqp
    have hfind : (m.map.find? fun e => pointEq e.1 p).isSome = true :=
      List.find?_isSome.mpr ⟨e, he, hep⟩
    obtain ⟨e2, he2⟩ := Option.isSome_iff_exists.mp hfind
    exact ⟨e2.2, by simp [Map.get, h, mapLookup, he2]⟩

/-- C2 witness: the amended space-equivalence theorem applied to a total Map
over `{'x': [1,2]}` and a validated Point of the equivalent Space
`{'x': [2,1]}`: the lookup is accepted. -/
theorem C2_map_space_check_witness :
    (specKeys (Map.mk [("x", [1, 2])]
        [(⟨[("x", [1, 2])], [("x", 1)]⟩, 10), (⟨[("x", [1, 2])], [("x", 2)]⟩, 20)] :
          Map Nat Nat).pspace).Nodup ∧
    ∃ v, (Map.mk [("x", [1, 2])]
        [(⟨[("x", [1, 2])], [("x", 1)]⟩, 10), (⟨[("x", [1, 2])], [("x", 2)]⟩, 20)] :
          Map Nat Nat).get ⟨[("x", [2, 1])], [("x", 1)]⟩ = some v :=
  ⟨by decide,
    ((C2_map_space_check (p := ⟨[("x", [2, 1])], [("x", 1)]⟩) (by decide)).2
      (by decide)).2 (by decide) (by decide)⟩

/-- C7: constructing a Map over a Space fails exactly when some Point of the
Space's enumeration is missing from the candidate dict; when every Point is
present the construction succeeds and every Point of the Space is retrievable
via get. -/
theorem C7_map_totality [DecidableEq α] {s : Spec α} {d : List (Point α × β)}
    (hn : (specKeys s).Nodup) :
    (make_map s d = none ↔ ∃ p ∈ points s, ∀ e ∈ d, pointEq e.1 p = false) ∧
    (∀ m, make_map s d = some m → ∀ p ∈ points s, ∃ v, m.get p = some v) := by
  constructor
  · unfold make_map
    constructor
    · intro hnone
      by_cases hval : validate_map s d = true
      · rw [if_pos hval] at hnone; cases hnone
      · have hval2 := Bool.eq_false_iff.mpr hval
        simp only [validate_map, List.all_eq_false] at hval2
        obtain ⟨p, hp, hfalse⟩ := hval2
        refine ⟨p, hp, fun e he => ?_⟩
        have hfalse2 := Bool.eq_false_iff.mpr hfalse
        rw [List.any_eq_false] at hfalse2
        exact Bool.eq_false_iff.mpr (hfalse2 e he)
    · rintro ⟨p, hp, hmiss⟩
      rw [if_neg]
      intro hval
      simp only [validate_map, List.all_eq_true] at hval
      have := hval p hp
      rw [List.any_eq_true] at this
      obtain ⟨e, he, hpe⟩ := this
      rw [hmiss e he] at hpe
      cases hpe
  · intro m hm p hp
    unfold make_map at hm
    by_cases hval : validate_map s d = true
    · rw [if_pos hval] at hm
      cases hm
      have hpp : p.pspace = s := by
        rw [points_eq_map hn] at hp
        obtain ⟨k, _, rfl⟩ := List.mem_map.mp hp
        rfl
      simp only [validate_map, List.all_eq_true] at hval
      have := hval p hp
      rw [List.any_eq_true] at this
      have hfind : (d.find? fun e => pointEq e.1 p).isSome = true :=
        List.find?_isSome.mpr this
      obtain ⟨e2, he2⟩ := Option.isSome_iff_exists.mp hfind
      refine ⟨e2.2, ?_⟩
      simp [Map.get, hpp, spaceEq_refl hn, mapLookup, he2]
    · rw [if_neg hval] at hm
      cases hm

/-- C7 witness: the totality theorem applied to a complete dict over
`{'x': [1,2]}`: every enumerated Point is retrievable. -/
theorem C7_map_totality_witness :
    (specKeys ([("x", [1, 2])] : Spec Nat)).Nodup ∧
    ∀ m, make_map ([("x", [1, 2])] : Spec Nat)
        [(⟨[("x", [1, 2])], [("x", 1)]⟩, 10), (⟨[("x", [1, 2])], [("x", 2)]⟩, 20)] =
        some m →
      ∀ p ∈ points ([("x", [1, 2])] : Spec Nat), ∃ v, m.get p = some v :=
  ⟨by decide, (C7_map_totality (by decide)).2⟩

/-! ### Claim C8 -/

/-- C8: `distance` raises unless the owning Spaces compare equal
(`ParamSpace.__eq__`); any returned value is the Euclidean (L2) norm of the
per-dimension absolute index differences (nonnegative, with square equal to
the sum of the squared differences); and on a single-dimension Space with
categories `[a,b,c]`, `distance(a,c) = 2.0` and `distance(a,a) = 0.0`. -/
theorem C8_distance [DecidableEq α] :
    (∀ p q : Point α, spaceEq p.pspace q.pspace = false → distance p q = none) ∧
    (∀ (p q : Point α) (r : ℝ), distance p q = some r →
      0 ≤ r ∧ ∃ ds, distDims p q = some ds ∧
        r ^ 2 = (ds.map fun d => (d : ℝ) ^ 2).sum) ∧
    (∀ (n : String) (a b c : α), a ≠ b → a ≠ c → b ≠ c →
      distance (⟨[(n, [a, b, c])], [(n, a)]⟩ : Point α)
          ⟨[(n, [a, b, c])], [(n, c)]⟩ = some 2 ∧
      distance (⟨[(n, [a, b, c])], [(n, a)]⟩ : Point α)
          ⟨[(n, [a, b, c])], [(n, a)]⟩ = some 0) := by
  have habs : ∀ p q : Point α, ∀ r : ℝ, distance p q = some r →
      0 ≤ r ∧ ∃ ds, distDims p q = some ds ∧
        r ^ 2 = (ds.map fun d => (d : ℝ) ^ 2).sum := by
    intro p q r hr
    rw [distance, Option.map_eq_some'] at hr
    obtain ⟨ds, hds, hsqrt⟩ := hr
    have hnn : (0 : ℝ) ≤ (ds.map fun d => (d : ℝ) ^ 2).sum :=
      List.sum_nonneg fun x hx => by
        obtain ⟨d, _, rfl⟩ := List.mem_map.mp hx
        positivity
    exact ⟨hsqrt ▸ Real.sqrt_nonneg _, ds, hds, by rw [← hsqrt, Real.sq_sqrt hnn]⟩
  refine ⟨?_, habs, ?_⟩
  · intro p q h
    rw [distance, distDims, if_neg (by simp [h])]
    rfl
  · intro n a b c hab hac hbc
    have hsp : spaceEq ([(n, [a, b, c])] : Spec α) [(n, [a, b, c])] = true :=
      spaceEq_refl (by simp [specKeys])
    constructor
    · have hdd : distDims (⟨[(n, [a, b, c])], [(n, a)]⟩ : Point α)
          ⟨[(n, [a, b, c])], [(n, c)]⟩ = some [2] := by
        rw [distDims, if_pos hsp]
        simp [List.mapM.loop, List.findIdx?_cons, hac, hbc,
          Ne.symm hac, Ne.symm hbc]
      rw [distance, hdd]
      have : ((([2] : List ℕ).map fun d => (d : ℝ) ^ 2).sum) = 4 := by norm_num
      rw [Option.map_some', this, show (4 : ℝ) = 2 ^ 2 by norm_num,
        Real.sqrt_sq (by norm_num)]
    · have hdd : distDims (⟨[(n, [a, b, c])], [(n, a)]⟩ : Point α)
          ⟨[(n, [a, b, c])], [(n, a)]⟩ = some [0] := by
        rw [distDims, if_pos hsp]
        simp [List.mapM.loop, List.findIdx?_cons]
      rw [distance, hdd]
      have : ((([0] : List ℕ).map fun d => (d : ℝ) ^ 2).sum) = 0 := by norm_num
      rw [Option.map_some', this, Real.sqrt_zero]

/-- C8 witness: the distance theorem's concrete clause evaluated with the
single dimension `d : [0,1,2]`. -/
theorem C8_distance_witness :
    ((0 : Nat) ≠ 1 ∧ (0 : Nat) ≠ 2 ∧ (1 : Nat) ≠ 2) ∧
    (distance (⟨[("d", [0, 1, 2])], [("d", 0)]⟩ : Point Nat)
        ⟨[("d", [0, 1, 2])], [("d", 2)]⟩ = some 2 ∧
      distance (⟨[("d", [0, 1, 2])], [("d", 0)]⟩ : Point Nat)
        ⟨[("d", [0, 1, 2])], [("d", 0)]⟩ = some 0) :=
  ⟨⟨by decide, by decide, by decide⟩,
    (C8_distance (α := Nat)).2.2 "d" 0 1 2 (by decide) (by decide) (by decide)⟩

/-! ### Claim C3 -/

theorem mapLookup_map_replace [DecidableEq α] {d : List (Point α × β)}
    {p : Point α} {v : β} (h : (d.any fun e => pointEq e.1 p) = true) :
    mapLookup (d.map fun e => if pointEq e.1 p then (e.1, v) else e) p = some v := by
  induction d with
  | nil => cases h
  | cons e t ih =>
    by_cases hpe : pointEq e.1 p = true
    · simp [mapLookup, List.find?_cons, hpe]
    · have hpe2 : pointEq e.1 p = false := Bool.eq_false_iff.mpr hpe
      rw [List.any_cons, hpe2, Bool.false_or] at h
      have := ih h
      simp only [mapLookup] at this ⊢
      simpa [List.find?_cons, hpe2] using this

theorem mapLookup_append_fresh [DecidableEq α] {d : List (Point α × β)}
    {p : Point α} {v : β} (h : (d.any fun e => pointEq e.1 p) = false)
    (hpp : pointEq p p = true) :
    mapLookup (d ++ [(p, v)]) p = some v := by
  induction d with
  | nil => simp [mapLookup, List.find?_cons, hpp]
  | cons e t ih =>
    rw [List.any_cons, Bool.or_eq_false_iff] at h
    simp only [mapLookup] at ih ⊢
    simpa [List.find?_cons, h.1] using ih h.2

theorem mapLookup_mapInsert_self [DecidableEq α] {d : List (Point α × β)}
    {p : Point α} {v : β} (hpp : pointEq p p = true) :
    mapLookup (mapInsert d p v) p = some v := by
  unfold mapInsert
  by_cases h : (d.any fun e => pointEq e.1 p) = true
  · rw [if_pos h]
    exact mapLookup_map_replace h
  · rw [if_neg h]
    exact mapLookup_append_fresh (Bool.eq_false_iff.mpr h) hpp

/-- C3: on a Memoized Function with plain (pure) argument maps, if a lookup of
`p` returns value `v` in state `mf2` with `n` invocations of the wrapped
function, then `n ≤ 1` and a second lookup of `p` returns the identical value
`v`, leaves the state `mf2` (hence the cache) unchanged, and performs no
further invocation — it is served from the cache, whose `unevaluated` sentinel
cell is distinct from every stored legal value, a stored `None` included. -/
theorem C3_memoized_idempotent [DecidableEq α] {γ : Type}
    {mf : MappedFunction α β γ} {p : Point α} {v : β}
    {mf2 : MappedFunction α β γ} {n : Nat} (hpp : pointEq p p = true)
    (h1 : mf.get p = some (v, mf2, n)) :
    n ≤ 1 ∧ mf2.get p = some (v, mf2, 0) := by
  unfold MappedFunction.get at h1
  by_cases hsp : spaceEq p.pspace mf.func.pspace = true
  · rw [if_pos hsp] at h1
    cases hc : mf.cache.get p with
    | none => rw [hc] at h1; cases h1
    | some cell =>
      rw [hc] at h1
      cases cell with
      | some v0 =>
        obtain ⟨rfl, rfl, rfl⟩ : v0 = v ∧ mf = mf2 ∧ 0 = n := by
          cases h1; exact ⟨rfl, rfl, rfl⟩
        refine ⟨by omega, ?_⟩
        unfold MappedFunction.get
        rw [if_pos hsp, hc]
      | none =>
        simp only [Option.bind_eq_bind, Option.bind_eq_some] at h1
        obtain ⟨args, hargs, h1⟩ := h1
        obtain ⟨cache2, hcache2, h1⟩ := h1
        obtain ⟨rfl, rfl, rfl⟩ :
            mf.func.f args = v ∧
              (⟨mf.func, mf.arg_maps, cache2⟩ : MappedFunction α β γ) = mf2 ∧
              1 = n := by
          cases h1; exact ⟨rfl, rfl, rfl⟩
        refine ⟨by omega, ?_⟩
        unfold MappedFunction.get
        rw [if_pos hsp]
        unfold Map.set at hcache2
        by_cases hsc : spaceEq p.pspace mf.cache.pspace = true
        · rw [if_pos hsc] at hcache2
          cases hcache2
          have : (Map.mk mf.cache.pspace
              (mapInsert mf.cache.map p (some (mf.func.f args)))).get p =
              some (some (mf.func.f args)) := by
            unfold Map.get
            rw [if_pos hsc]
            exact mapLookup_mapInsert_self hpp
          rw [this]
        · rw [if_neg hsc] at hcache2
          cases hcache2
  · rw [if_neg hsp] at h1
    cases h1

/-- C3 witness: the idempotent-caching theorem applied to a concrete Memoized
Function over `{'x': [0,1]}` whose wrapped function returns `None`
(`some none` as a stored legal value, distinct from the sentinel): the first
lookup evaluates once and the second is served from the cache. -/
theorem C3_memoized_idempotent_witness :
    (pointEq (⟨[("x", [0, 1])], [("x", 0)]⟩ : Point Nat)
        ⟨[("x", [0, 1])], [("x", 0)]⟩ = true ∧
      (MappedFunction.init (α := Nat) (β := Option Nat) (γ := Nat)
          ⟨[("x", [0, 1])], fun _ => none⟩ []).get ⟨[("x", [0, 1])], [("x", 0)]⟩ =
        some (none,
          ⟨⟨[("x", [0, 1])], fun _ => none⟩, [],
            ⟨[("x", [0, 1])],
              [(⟨[("x", [0, 1])], [("x", 0)]⟩, some none),
               (⟨[("x", [0, 1])], [("x", 1)]⟩, none)]⟩⟩, 1)) ∧
    (1 ≤ 1 ∧
      (⟨⟨[("x", [0, 1])], fun _ => none⟩, [],
          ⟨[("x", [0, 1])],
            [(⟨[("x", [0, 1])], [("x", 0)]⟩, some none),
             (⟨[("x", [0, 1])], [("x", 1)]⟩, none)]⟩⟩ :
          MappedFunction Nat (Option Nat) Nat).get ⟨[("x", [0, 1])], [("x", 0)]⟩ =
        some (none,
          ⟨⟨[("x", [0, 1])], fun _ => none⟩, [],
            ⟨[("x", [0, 1])],
              [(⟨[("x", [0, 1])], [("x", 0)]⟩, some none),
               (⟨[("x", [0, 1])], [("x", 1)]⟩, none)]⟩⟩, 0)) :=
  have h1 : (MappedFunction.init (α := Nat) (β := Option Nat) (γ := Nat)
      ⟨[("x", [0, 1])], fun _ => none⟩ []).get ⟨[("x", [0, 1])], [("x", 0)]⟩ =
      some (none,
        ⟨⟨[("x", [0, 1])], fun _ => none⟩, [],
          ⟨[("x", [0, 1])],
            [(⟨[("x", [0, 1])], [("x", 0)]⟩, some none),
             (⟨[("x", [0, 1])], [("x", 1)]⟩, none)]⟩⟩, 1) := by rfl
  ⟨⟨by decide, h1⟩, C3_memoized_idempotent (by decide) h1⟩

/-! ### Claim C5 -/

theorem make_point_some [DecidableEq α] {s : Spec α} {key : Dict α} {q : Point α}
    (h : make_point s key = some q) :
    q = ⟨s, key⟩ ∧ validate_key s key = true := by
  unfold make_point at h
  by_cases hv : validate_key s key = true
  · rw [if_pos hv] at h
    cases h
    exact ⟨rfl, hv⟩
  · rw [if_neg hv] at h
    cases h

theorem mapM_mem_exists {σ τ : Type} {f : σ → Option τ} {l : List σ}
    {out : List τ} (h : l.mapM f = some out) :
    ∀ y ∈ out, ∃ x ∈ l, f x = some y := by
  induction l generalizing out with
  | nil =>
    rw [List.mapM_nil] at h
    cases h
    intro y hy
    cases hy
  | cons x xs ih =>
    rw [List.mapM_cons] at h
    cases hfx : f x with
    | none => rw [hfx] at h; cases h
    | some y0 =>
      rw [hfx] at h
      cases hrest : xs.mapM f with
      | none => rw [hrest] at h; cases h
      | some ys =>
        rw [hrest] at h
        simp only [Option.bind_some, Option.bind_eq_bind] at h
        cases h
        intro y hy
        rcases List.mem_cons.mp hy with rfl | hy
        · exact ⟨x, List.mem_cons_self _ _, hfx⟩
        · obtain ⟨x2, hx2, hfx2⟩ := ih hrest y hy
          exact ⟨x2, List.mem_cons_of_mem _ hx2, hfx2⟩

theorem contract_mapM [DecidableEq α] {K : Dict α} {s1 : Spec α}
    (hn : (specKeys s1).Nodup) (h : ∀ nv ∈ s1, ∃ v, K.lookup nv.1 = some v) :
    ∃ kc, (s1.mapM fun nv => (K.lookup nv.1).map fun v => (nv.1, v)) = some kc ∧
      ∀ nv ∈ s1, kc.lookup nv.1 = K.lookup nv.1 := by
  induction s1 with
  | nil => exact ⟨[], rfl, fun nv hnv => by cases hnv⟩
  | cons hd t ih =>
    simp only [specKeys, List.map_cons, List.nodup_cons] at hn
    obtain ⟨v, hv⟩ := h hd (List.mem_cons_self _ _)
    obtain ⟨kt, hkt, hmatch⟩ := ih hn.2 fun nv hnv => h nv (List.mem_cons_of_mem _ hnv)
    refine ⟨(hd.1, v) :: kt, ?_, ?_⟩
    · rw [List.mapM_cons, hv, hkt]
      rfl
    · intro nv hnv
      rcases List.mem_cons.mp hnv with rfl | hmem
      · simp [List.lookup, hv]
      · have hne : (nv.1 == hd.1) = false := by
          refine beq_eq_false_iff_ne.mpr fun hEq => hn.1 ?_
          exact hEq ▸ List.mem_map.mpr ⟨nv, hmem, rfl⟩
        rw [lookup_cons_ne (e := (hd.1, v)) hne]
        exact hmatch nv hmem

theorem contract_point_eq [DecidableEq α] {q : Point α} {s1 : Spec α}
    (hn : (specKeys s1).Nodup)
    (h : ∀ nv ∈ s1, ∃ v ∈ nv.2, q.key.lookup nv.1 = some v) :
    ∃ pc, contract_point q s1 = some pc ∧ pc.pspace = s1 ∧
      ∀ nv ∈ s1, pc.key.lookup nv.1 = q.key.lookup nv.1 := by
  obtain ⟨kc, hkc, hmatch⟩ :=
    contract_mapM hn fun nv hnv => (h nv hnv).imp fun v hv => hv.2
  have hval : validate_key s1 kc = true := by
    simp only [validate_key, List.all_eq_true]
    intro nv hnv
    obtain ⟨v, hvmem, hvl⟩ := h nv hnv
    rw [hmatch nv hnv, hvl]
    simpa using hvmem
  refine ⟨⟨s1, kc⟩, ?_, rfl, hmatch⟩
  unfold contract_point
  rw [hkc]
  simp [make_point, hval]

/-- C5: for a validated Point `p` of a subspace (distinct dimension names) and
any target Space, every Point produced by `expand_point(p, S2)` contracts back
onto `p`'s Space to a Point equal (`Point.__eq__`) to `p`. -/
theorem C5_expand_contract_round_trip [DecidableEq α] {p : Point α}
    {s2 : Spec α} {qs : List (Point α)} (hn : (specKeys p.pspace).Nodup)
    (hv : validate_key p.pspace p.key = true) (he : expand_point p s2 = some qs) :
    ∀ q ∈ qs, ∃ pc, contract_point q p.pspace = some pc ∧ pointEq pc p = true := by
  intro q hq
  unfold expand_point at he
  cases hdiff : difference s2 p.pspace with
  | none => rw [hdiff] at he; cases he
  | some extra =>
    rw [hdiff] at he
    simp only [Option.bind_eq_bind, Option.some_bind, Option.pure_def] at he
    obtain ⟨pe, _, hmk⟩ := mapM_mem_exists he q hq
    obtain ⟨rfl, _⟩ := make_point_some hmk
    have hlook : ∀ nv ∈ p.pspace, ∃ v ∈ nv.2,
        (Point.mk s2 (p.key ++ pe.key)).key.lookup nv.1 = some v := by
      intro nv hnv
      obtain ⟨v, hvmem, hvl⟩ := validate_key_lookup hv hnv
      refine ⟨v, hvmem, ?_⟩
      have hmem : nv.1 ∈ p.key.map Prod.fst := lookup_isSome_iff.mp (by simp [hvl])
      rw [show (Point.mk s2 (p.key ++ pe.key)).key = p.key ++ pe.key from rfl,
        lookup_append_left hmem]
      exact hvl
    obtain ⟨pc, hpc, hps, hmatch⟩ := contract_point_eq hn hlook
    refine ⟨pc, hpc, ?_⟩
    rw [pointEq_iff]
    constructor
    · rw [hps]
      exact spaceEq_refl hn
    · intro nv hnv
      rw [hps] at hnv
      obtain ⟨v, _, hvl2⟩ := hlook nv hnv
      obtain ⟨v2, hvmem2, hvl3⟩ := validate_key_lookup hv hnv
      have hmem : nv.1 ∈ p.key.map Prod.fst := lookup_isSome_iff.mp (by simp [hvl3])
      have : (p.key ++ pe.key).lookup nv.1 = p.key.lookup nv.1 :=
        lookup_append_left hmem
      exact ⟨v2, by rw [hmatch nv hnv]; rw [this]; exact hvl3, hvl3⟩

/-- C5 witness: the round trip evaluated with `p = (x=1)` in `{'x': [0,1]}`
expanded into `{'x': [0,1], 'y': [5,6]}`. -/
theorem C5_expand_contract_round_trip_witness :
    ((specKeys (⟨[("x", [0, 1])], [("x", 1)]⟩ : Point Nat).pspace).Nodup ∧
      validate_key (⟨[("x", [0, 1])], [("x", 1)]⟩ : Point Nat).pspace
        (⟨[("x", [0, 1])], [("x", 1)]⟩ : Point Nat).key = true ∧
      expand_point (⟨[("x", [0, 1])], [("x", 1)]⟩ : Point Nat)
          [("x", [0, 1]), ("y", [5, 6])] =
        some [⟨[("x", [0, 1]), ("y", [5, 6])], [("x", 1), ("y", 5)]⟩,
              ⟨[("x", [0, 1]), ("y", [5, 6])], [("x", 1), ("y", 6)]⟩]) ∧
    ∀ q ∈ [(⟨[("x", [0, 1]), ("y", [5, 6])], [("x", 1), ("y", 5)]⟩ : Point Nat),
           ⟨[("x", [0, 1]), ("y", [5, 6])], [("x", 1), ("y", 6)]⟩],
      ∃ pc, contract_point q (⟨[("x", [0, 1])], [("x", 1)]⟩ : Point Nat).pspace =
          some pc ∧
        pointEq pc (⟨[("x", [0, 1])], [("x", 1)]⟩ : Point Nat) = true :=
  ⟨⟨by decide, by decide, by decide⟩,
    @C5_expand_contract_round_trip Nat _ ⟨[("x", [0, 1])], [("x", 1)]⟩
      [("x", [0, 1]), ("y", [5, 6])]
      [⟨[("x", [0, 1]), ("y", [5, 6])], [("x", 1), ("y", 5)]⟩,
       ⟨[("x", [0, 1]), ("y", [5, 6])], [("x", 1), ("y", 6)]⟩]
      (by decide) (by decide) (by decide)⟩

/-! ### Structural lemmas for the reshape operators (claims C4 and C9) -/

theorem listSetEq_refl [DecidableEq α] {l : List α} : listSetEq l l = true :=
  listSetEq_iff.mpr fun _ => Iff.rfl

theorem map_graph_self {s : Spec α} (hn : (specKeys s).Nodup) :
    ((specKeys s).map fun k => (k, (s.lookup k).getD [])) = s := by
  induction s with
  | nil => rfl
  | cons nv t ih =>
    simp only [specKeys, List.map_cons, List.nodup_cons] at hn ⊢
    have htail : ∀ k ∈ List.map Prod.fst t,
        (k, ((nv :: t).lookup k).getD []) = (k, (t.lookup k).getD []) := by
      intro k hk
      have hne : (k == nv.1) = false := by
        refine beq_eq_false_iff_ne.mpr fun hEq => hn.1 ?_
        exact hEq ▸ hk
      rw [lookup_cons_ne (e := nv) hne]
    have hhead : (nv.1, ((nv :: t).lookup nv.1).getD []) = nv := by
      obtain ⟨n, l⟩ := nv
      simp [List.lookup]
    have ih2 := ih hn.2
    simp only [specKeys] at ih2
    rw [List.map_congr_left htail, ih2, hhead]

theorem specKeys_append {s1 s2 : Spec α} :
    specKeys (s1 ++ s2) = specKeys s1 ++ specKeys s2 := by
  simp [specKeys]

theorem lookup_spec_append_left {s1 s2 : Spec α} {n : String}
    (h : n ∈ specKeys s1) : (s1 ++ s2).lookup n = s1.lookup n :=
  lookup_append_left h

theorem lookup_spec_append_right {s1 s2 : Spec α} {n : String}
    (h : n ∉ specKeys s1) : (s1 ++ s2).lookup n = s2.lookup n :=
  lookup_append_right h

theorem union_disjoint [DecidableEq α] {s1 s2 : Spec α}
    (hn1 : (specKeys s1).Nodup) (hn2 : (specKeys s2).Nodup)
    (hdisj : ∀ n ∈ specKeys s2, n ∉ specKeys s1) :
    union s1 s2 = some (s1 ++ s2) := by
  have hfilter : ((specKeys s2).filter fun k => decide (k ∉ specKeys s1)) =
      specKeys s2 :=
    List.filter_eq_self.mpr fun k hk => by simpa using hdisj k hk
  have hall : ((specKeys s1 ++ (specKeys s2).filter fun k =>
      decide (k ∉ specKeys s1)).all
      (fun k =>
        !(decide ((s1.lookup k).getD [] ≠ []) &&
          decide ((s2.lookup k).getD [] ≠ []) &&
          !listSetEq ((s1.lookup k).getD []) ((s2.lookup k).getD [])))) = true := by
    rw [hfilter, List.all_eq_true]
    intro k hk
    rcases List.mem_append.mp hk with h1 | h2
    · have h2n : s2.lookup k = none :=
        lookup_eq_none_of_not_mem fun h => hdisj k h h1
      simp [h2n]
    · have h1n : s1.lookup k = none := lookup_eq_none_of_not_mem (hdisj k h2)
      simp [h1n]
  have hleft : ∀ k ∈ specKeys s1,
      (k, if ((s1.lookup k).getD []).isEmpty then (s2.lookup k).getD []
          else (s1.lookup k).getD []) = (k, (s1.lookup k).getD []) := by
    intro k hk
    have h2n : s2.lookup k = none := lookup_eq_none_of_not_mem fun h => hdisj k h hk
    cases hl : s1.lookup k with
    | none => simp [hl, h2n]
    | some l1 =>
      cases l1 with
      | nil => simp [hl, h2n]
      | cons a t2 => simp [hl]
  have hright : ∀ k ∈ specKeys s2,
      (k, if ((s1.lookup k).getD []).isEmpty then (s2.lookup k).getD []
          else (s1.lookup k).getD []) = (k, (s2.lookup k).getD []) := by
    intro k hk
    have h1n : s1.lookup k = none := lookup_eq_none_of_not_mem (hdisj k hk)
    simp [h1n]
  unfold union
  rw [if_pos hall, hfilter, List.map_append, List.map_congr_left hleft,
    List.map_congr_left hright, map_graph_self hn1, map_graph_self hn2]

theorem intersection_append_left [DecidableEq α] {s1 s2 : Spec α} :
    (intersection (s1 ++ s2) s1).isSome = true := by
  have hint : (((specKeys (s1 ++ s2)).filter fun k =>
      decide (k ∈ specKeys s1)).all
      (fun k => listSetEq (((s1 ++ s2).lookup k).getD [])
        ((s1.lookup k).getD []))) = true := by
    rw [List.all_eq_true]
    intro k hk
    have hk1 : k ∈ specKeys s1 := by simpa using (List.mem_filter.mp hk).2
    rw [lookup_spec_append_left hk1]
    exact listSetEq_refl
  unfold intersection
  rw [if_pos hint]
  rfl

theorem difference_append_left [DecidableEq α] {s1 s2 : Spec α}
    (hn2 : (specKeys s2).Nodup)
    (hdisj : ∀ n ∈ specKeys s2, n ∉ specKeys s1) :
    difference (s1 ++ s2) s1 = some s2 := by
  have hfilter : ((specKeys (s1 ++ s2)).filter fun k =>
      decide (k ∉ specKeys s1)) = specKeys s2 := by
    rw [specKeys_append, List.filter_append]
    have h1 : ((specKeys s1).filter fun k => decide (k ∉ specKeys s1)) = [] :=
      List.filter_eq_nil_iff.mpr fun k hk => by simpa using hk
    have h2 : ((specKeys s2).filter fun k => decide (k ∉ specKeys s1)) =
        specKeys s2 :=
      List.filter_eq_self.mpr fun k hk => by simpa using hdisj k hk
    rw [h1, h2, List.nil_append]
  have hcong : ∀ k ∈ specKeys s2,
      (k, ((s1 ++ s2).lookup k).getD []) = (k, (s2.lookup k).getD []) := by
    intro k hk
    rw [lookup_spec_append_right (hdisj k hk)]
  unfold difference
  rw [if_pos intersection_append_left, hfilter,
    List.map_congr_left hcong, map_graph_self hn2]

theorem cartKeys_append {s1 s2 : Spec α} :
    cartKeys (s1 ++ s2) =
      (cartKeys s1).flatMap fun k1 => (cartKeys s2).map fun k2 => k1 ++ k2 := by
  induction s1 with
  | nil => simp [cartKeys]
  | cons nv t ih =>
    obtain ⟨n, cats⟩ := nv
    simp [List.cons_append, cartKeys, ih, List.map_flatMap, List.flatMap_map,
      List.flatMap_assoc, List.map_map, Function.comp_def]

theorem mapM_eq_map_of_some {σ τ : Type} {l : List σ} {F : σ → Option τ}
    {G : σ → τ} (h : ∀ x ∈ l, F x = some (G x)) : l.mapM F = some (l.map G) := by
  induction l with
  | nil => rfl
  | cons x xs ih =>
    rw [List.mapM_cons, h x (List.mem_cons_self x xs),
      ih fun y hy => h y (List.mem_cons_of_mem x hy)]
    rfl

theorem cartKeys_length_const {s : Spec α} {k : Dict α} (h : k ∈ cartKeys s) :
    k.length = s.length := by
  have h0 := cartKeys_names h
  have h1 : (k.map Prod.fst).length = (specKeys s).length := by rw [h0]
  simpa [specKeys] using h1

theorem append_cartKeys_inj {s1 : Spec α} {k1 k1b k2 k2b : Dict α}
    (h1 : k1 ∈ cartKeys s1) (h1b : k1b ∈ cartKeys s1)
    (heq : k1 ++ k2 = k1b ++ k2b) : k1 = k1b ∧ k2 = k2b := by
  have hlen : k1.length = k1b.length := by
    rw [cartKeys_length_const h1, cartKeys_length_const h1b]
  exact List.append_inj heq hlen

theorem mapLookup_point_graph {τ : Type} [DecidableEq α] {s : Spec α}
    (hn : (specKeys s).Nodup) {ks : List (Dict α)} {g : Dict α → τ} {k : Dict α}
    (hsub : ∀ k2 ∈ ks, k2 ∈ cartKeys s) (hk : k ∈ cartKeys s) (hmem : k ∈ ks) :
    mapLookup (ks.map fun k2 => (Point.mk s k2, g k2)) (Point.mk s k) =
      some (g k) := by
  induction ks with
  | nil => cases hmem
  | cons k0 rest ih =>
    by_cases hke : k0 = k
    · subst hke
      have hrefl : pointEq (Point.mk s k0) (Point.mk s k0) = true :=
        pointEq_refl hn (validate_key_cartKeys hn hk)
      simp [mapLookup, List.find?_cons, hrefl]
    · have hne : pointEq (Point.mk s k0) (Point.mk s k) = false :=
        pointEq_cartKeys_ne hn (hsub k0 (List.mem_cons_self _ _)) hk hke
      have hmem2 : k ∈ rest := by
        rcases List.mem_cons.mp hmem with h | h
        · exact absurd h.symm hke
        · exact h
      have hres := ih (fun k2 hk2 => hsub k2 (List.mem_cons_of_mem _ hk2)) hmem2
      simp only [mapLookup] at hres ⊢
      simpa [List.find?_cons, hne] using hres

theorem contract_mapM_exact [DecidableEq α] {K : Dict α} {s : Spec α}
    {k : Dict α} (hn : (specKeys s).Nodup) (hk : k ∈ cartKeys s)
    (h : ∀ nv ∈ s, K.lookup nv.1 = k.lookup nv.1) :
    (s.mapM fun nv => (K.lookup nv.1).map fun v => (nv.1, v)) = some k := by
  induction s generalizing k with
  | nil =>
    simp only [cartKeys, List.mem_singleton] at hk
    subst hk
    rfl
  | cons hd t ih =>
    obtain ⟨n, cats⟩ := hd
    obtain ⟨c, _, kt, hkt, rfl⟩ := mem_cartKeys_cons.mp hk
    simp only [specKeys, List.map_cons, List.nodup_cons] at hn
    have hhead : K.lookup n = some c := by
      have h0 := h (n, cats) (List.mem_cons_self _ _)
      simpa [List.lookup] using h0
    have htail : ∀ nv ∈ t, K.lookup nv.1 = kt.lookup nv.1 := by
      intro nv hnv
      have hne : (nv.1 == n) = false := by
        refine beq_eq_false_iff_ne.mpr fun hEq => hn.1 ?_
        exact hEq ▸ List.mem_map.mpr ⟨nv, hnv, rfl⟩
      have h0 := h nv (List.mem_cons_of_mem _ hnv)
      rwa [lookup_cons_ne (e := (n, c)) hne] at h0
    rw [List.mapM_cons, hhead, ih hn.2 hkt htail]
    rfl

theorem contract_cartKey [DecidableEq α] {q : Point α} {s : Spec α} {k : Dict α}
    (hn : (specKeys s).Nodup) (hk : k ∈ cartKeys s)
    (h : ∀ nv ∈ s, q.key.lookup nv.1 = k.lookup nv.1) :
    contract_point q s = some ⟨s, k⟩ := by
  unfold contract_point
  rw [contract_mapM_exact hn hk h]
  simp [make_point, validate_key_cartKeys hn hk]

theorem contract_append_left [DecidableEq α] {s1 : Spec α} {q : Point α}
    {k1 k2 : Dict α} (hq : q.key = k1 ++ k2) (hn1 : (specKeys s1).Nodup)
    (hk1 : k1 ∈ cartKeys s1) : contract_point q s1 = some ⟨s1, k1⟩ :=
  contract_cartKey hn1 hk1 fun nv hnv => by
    rw [hq]
    exact lookup_append_left
      (cartKeys_names hk1 ▸ List.mem_map.mpr ⟨nv, hnv, rfl⟩)

theorem contract_append_right [DecidableEq α] {s1 s2 : Spec α} {q : Point α}
    {k1 k2 : Dict α} (hq : q.key = k1 ++ k2) (hn2 : (specKeys s2).Nodup)
    (hk1 : k1 ∈ cartKeys s1) (hk2 : k2 ∈ cartKeys s2)
    (hdisj : ∀ n ∈ specKeys s2, n ∉ specKeys s1) :
    contract_point q s2 = some ⟨s2, k2⟩ :=
  contract_cartKey hn2 hk2 fun nv hnv => by
    rw [hq]
    refine lookup_append_right fun hmem => ?_
    rw [cartKeys_names hk1] at hmem
    exact hdisj nv.1 (List.mem_map.mpr ⟨nv, hnv, rfl⟩) hmem

theorem cartKeys_ne_nil {s : Spec α} (h : ∀ nv ∈ s, nv.2 ≠ []) :
    cartKeys s ≠ [] := by
  induction s with
  | nil => simp [cartKeys]
  | cons hd t ih =>
    obtain ⟨n, cats⟩ := hd
    obtain ⟨kt, hkt⟩ := List.exists_mem_of_ne_nil _
      (ih fun nv hnv => h nv (List.mem_cons_of_mem _ hnv))
    obtain ⟨c, hc⟩ := List.exists_mem_of_ne_nil _ (h (n, cats) (List.mem_cons_self _ _))
    exact List.ne_nil_of_mem (mem_cartKeys_cons.mpr ⟨c, hc, kt, hkt, rfl⟩)

theorem mem_cartKeys_append {s1 s2 : Spec α} {k1 k2 : Dict α}
    (hk1 : k1 ∈ cartKeys s1) (hk2 : k2 ∈ cartKeys s2) :
    k1 ++ k2 ∈ cartKeys (s1 ++ s2) := by
  rw [cartKeys_append]
  exact List.mem_flatMap.mpr ⟨k1, hk1, List.mem_map.mpr ⟨k2, hk2, rfl⟩⟩

theorem pointEq_cartKeys_eq [DecidableEq α] {s : Spec α} (hn : (specKeys s).Nodup)
    {k k2 : Dict α} (hk : k ∈ cartKeys s) (hk2 : k2 ∈ cartKeys s)
    (h : pointEq (Point.mk s k) (Point.mk s k2) = true) : k = k2 := by
  by_contra hne
  rw [pointEq_cartKeys_ne hn hk hk2 hne] at h
  cases h

theorem find?_mem_of_exists {σ : Type} {d : List σ} {pb : σ → Bool}
    (h : ∃ e ∈ d, pb e = true) :
    ∃ e, d.find? pb = some e ∧ e ∈ d ∧ pb e = true := by
  have hs : (d.find? pb).isSome = true := by
    rw [List.find?_isSome]
    obtain ⟨e0, he0, hp⟩ := h
    exact ⟨e0, he0, hp⟩
  obtain ⟨e0, he0⟩ := Option.isSome_iff_exists.mp hs
  exact ⟨e0, he0, List.mem_of_find?_eq_some he0, List.find?_some he0⟩

theorem mapLookup_entries {τ : Type} [DecidableEq α] {s : Spec α}
    (hn : (specKeys s).Nodup) {g : Dict α → τ} {d : List (Point α × τ)}
    (hcons : ∀ e ∈ d, ∃ kb ∈ cartKeys s, e = (Point.mk s kb, g kb))
    {k : Dict α} (hk : k ∈ cartKeys s)
    (hcov : ∃ e ∈ d, pointEq e.1 (Point.mk s k) = true) :
    mapLookup d (Point.mk s k) = some (g k) := by
  obtain ⟨e, hfind, hmem, hpe⟩ := find?_mem_of_exists hcov
  obtain ⟨kb, hkb, heq⟩ := hcons e hmem
  rw [heq] at hpe
  have hkk : kb = k := pointEq_cartKeys_eq hn hkb hk hpe
  unfold mapLookup
  rw [hfind, heq, hkk]
  rfl

theorem mapInsert_entries {τ : Type} [DecidableEq α] {s : Spec α}
    (hn : (specKeys s).Nodup) {g : Dict α → τ} {d : List (Point α × τ)}
    (hcons : ∀ e ∈ d, ∃ kb ∈ cartKeys s, e = (Point.mk s kb, g kb))
    {k : Dict α} (hk : k ∈ cartKeys s) :
    ∀ e ∈ mapInsert d (Point.mk s k) (g k),
      ∃ kb ∈ cartKeys s, e = (Point.mk s kb, g kb) := by
  intro e he
  unfold mapInsert at he
  by_cases hany : (d.any fun e => pointEq e.1 (Point.mk s k)) = true
  · rw [if_pos hany] at he
    simp only [List.mem_map] at he
    obtain ⟨e0, he0, heq⟩ := he
    obtain ⟨kb, hkb, he0eq⟩ := hcons e0 he0
    by_cases hm : pointEq e0.1 (Point.mk s k) = true
    · rw [if_pos hm] at heq
      subst heq
      rw [he0eq] at hm
      have hkk : kb = k := pointEq_cartKeys_eq hn hkb hk hm
      refine ⟨k, hk, ?_⟩
      rw [he0eq, hkk]
    · rw [if_neg hm] at heq
      subst heq
      exact ⟨kb, hkb, he0eq⟩
  · rw [if_neg hany] at he
    rcases List.mem_append.mp he with he | he
    · exact hcons e he
    · rw [List.mem_singleton] at he
      subst he
      exact ⟨k, hk, rfl⟩

theorem mapInsert_matchSelf {τ : Type} [DecidableEq α] {s : Spec α}
    (hn : (specKeys s).Nodup) {d : List (Point α × τ)} {k : Dict α}
    (hk : k ∈ cartKeys s) {v : τ} :
    ∃ e ∈ mapInsert d (Point.mk s k) v, pointEq e.1 (Point.mk s k) = true := by
  unfold mapInsert
  by_cases hany : (d.any fun e => pointEq e.1 (Point.mk s k)) = true
  · rw [if_pos hany]
    rw [List.any_eq_true] at hany
    obtain ⟨e0, he0, hpe⟩ := hany
    refine ⟨(e0.1, v), List.mem_map.mpr ⟨e0, he0, ?_⟩, hpe⟩
    show (if pointEq e0.1 (Point.mk s k) = true then (e0.1, v) else e0) = (e0.1, v)
    rw [if_pos hpe]
  · rw [if_neg hany]
    exact ⟨(Point.mk s k, v), List.mem_append_right _ (List.mem_singleton.mpr rfl),
      pointEq_refl hn (validate_key_cartKeys hn hk)⟩

theorem mapInsert_matchMono {τ : Type} [DecidableEq α] {d : List (Point α × τ)}
    {p : Point α} {v : τ} {q : Point α}
    (h : ∃ e ∈ d, pointEq e.1 q = true) :
    ∃ e ∈ mapInsert d p v, pointEq e.1 q = true := by
  obtain ⟨e0, he0, hpe⟩ := h
  unfold mapInsert
  by_cases hm0 : pointEq e0.1 p = true
  · rw [if_pos (List.any_eq_true.mpr ⟨e0, he0, hm0⟩)]
    refine ⟨(e0.1, v), List.mem_map.mpr ⟨e0, he0, ?_⟩, hpe⟩
    show (if pointEq e0.1 p = true then (e0.1, v) else e0) = (e0.1, v)
    rw [if_pos hm0]
  · by_cases hany : (d.any fun e => pointEq e.1 p) = true
    · rw [if_pos hany]
      refine ⟨e0, List.mem_map.mpr ⟨e0, he0, ?_⟩, hpe⟩
      show (if pointEq e0.1 p = true then (e0.1, v) else e0) = e0
      rw [if_neg hm0]
    · rw [if_neg hany]
      exact ⟨e0, List.mem_append_left _ he0, hpe⟩

theorem nestedInsert_entries [DecidableEq α] {s1 s2 : Spec α}
    (hn1 : (specKeys s1).Nodup) (hn2 : (specKeys s2).Nodup) {f : Dict α → β}
    {acc : List (Point α × List (Point α × β))}
    (hA : ∀ e ∈ acc, ∃ k1b ∈ cartKeys s1, e.1 = Point.mk s1 k1b ∧
      ∀ e2 ∈ e.2, ∃ k2b ∈ cartKeys s2, e2 = (Point.mk s2 k2b, f (k1b ++ k2b)))
    {k1 k2 : Dict α} (hk1 : k1 ∈ cartKeys s1) (hk2 : k2 ∈ cartKeys s2) :
    ∀ e ∈ nestedInsert acc (Point.mk s1 k1) (Point.mk s2 k2) (f (k1 ++ k2)),
      ∃ k1b ∈ cartKeys s1, e.1 = Point.mk s1 k1b ∧
      ∀ e2 ∈ e.2, ∃ k2b ∈ cartKeys s2, e2 = (Point.mk s2 k2b, f (k1b ++ k2b)) := by
  intro e he
  unfold nestedInsert at he
  by_cases hany : (acc.any fun e => pointEq e.1 (Point.mk s1 k1)) = true
  · rw [if_pos hany] at he
    simp only [List.mem_map] at he
    obtain ⟨e0, he0, heq⟩ := he
    obtain ⟨k1b, hk1b, hkey, hinner⟩ := hA e0 he0
    by_cases hm : pointEq e0.1 (Point.mk s1 k1) = true
    · rw [if_pos hm] at heq
      subst heq
      rw [hkey] at hm
      have hkk : k1b = k1 := pointEq_cartKeys_eq hn1 hk1b hk1 hm
      subst hkk
      exact ⟨k1b, hk1b, hkey, mapInsert_entries hn2 hinner hk2⟩
    · rw [if_neg hm] at heq
      subst heq
      exact hA e0 he0
  · rw [if_neg hany] at he
    rcases List.mem_append.mp he with he | he
    · exact hA e he
    · rw [List.mem_singleton] at he
      subst he
      refine ⟨k1, hk1, rfl, ?_⟩
      intro e2 he2
      rw [show mapInsert ([] : List (Point α × β)) (Point.mk s2 k2) (f (k1 ++ k2)) =
        [(Point.mk s2 k2, f (k1 ++ k2))] from rfl] at he2
      rw [List.mem_singleton] at he2
      subst he2
      exact ⟨k2, hk2, rfl⟩

theorem nestedInsert_covers_self [DecidableEq α] {s1 : Spec α}
    (hn1 : (specKeys s1).Nodup)
    {acc : List (Point α × List (Point α × β))}
    {k1 : Dict α} (hk1 : k1 ∈ cartKeys s1) {EP : Point α} {v : β} :
    ∃ e ∈ nestedInsert acc (Point.mk s1 k1) EP v,
      pointEq e.1 (Point.mk s1 k1) = true := by
  unfold nestedInsert
  by_cases hany : (acc.any fun e => pointEq e.1 (Point.mk s1 k1)) = true
  · rw [if_pos hany]
    rw [List.any_eq_true] at hany
    obtain ⟨e0, he0, hpe⟩ := hany
    refine ⟨(e0.1, mapInsert e0.2 EP v), List.mem_map.mpr ⟨e0, he0, ?_⟩, hpe⟩
    show (if pointEq e0.1 (Point.mk s1 k1) = true then
      (e0.1, mapInsert e0.2 EP v) else e0) = (e0.1, mapInsert e0.2 EP v)
    rw [if_pos hpe]
  · rw [if_neg hany]
    exact ⟨(Point.mk s1 k1, mapInsert [] EP v),
      List.mem_append_right _ (List.mem_singleton.mpr rfl),
      pointEq_refl hn1 (validate_key_cartKeys hn1 hk1)⟩

theorem nestedInsert_matchMono [DecidableEq α]
    {acc : List (Point α × List (Point α × β))} {P1 EP : Point α} {v : β}
    {q : Point α} (h : ∃ e ∈ acc, pointEq e.1 q = true) :
    ∃ e ∈ nestedInsert acc P1 EP v, pointEq e.1 q = true := by
  obtain ⟨e0, he0, hpe⟩ := h
  unfold nestedInsert
  by_cases hm0 : pointEq e0.1 P1 = true
  · rw [if_pos (List.any_eq_true.mpr ⟨e0, he0, hm0⟩)]
    refine ⟨(e0.1, mapInsert e0.2 EP v), List.mem_map.mpr ⟨e0, he0, ?_⟩, hpe⟩
    show (if pointEq e0.1 P1 = true then (e0.1, mapInsert e0.2 EP v) else e0) =
      (e0.1, mapInsert e0.2 EP v)
    rw [if_pos hm0]
  · by_cases hany : (acc.any fun e => pointEq e.1 P1) = true
    · rw [if_pos hany]
      refine ⟨e0, List.mem_map.mpr ⟨e0, he0, ?_⟩, hpe⟩
      show (if pointEq e0.1 P1 = true then (e0.1, mapInsert e0.2 EP v) else e0) = e0
      rw [if_neg hm0]
    · rw [if_neg hany]
      exact ⟨e0, List.mem_append_left _ he0, hpe⟩

theorem nestedInsert_inner_self [DecidableEq α] {s2 : Spec α}
    (hn2 : (specKeys s2).Nodup) {P1 : Point α}
    {acc : List (Point α × List (Point α × β))}
    {k2 : Dict α} (hk2 : k2 ∈ cartKeys s2) {v : β} :
    ∀ e ∈ nestedInsert acc P1 (Point.mk s2 k2) v,
      pointEq e.1 P1 = true →
      ∃ e2 ∈ e.2, pointEq e2.1 (Point.mk s2 k2) = true := by
  intro e he hpe
  unfold nestedInsert at he
  by_cases hany : (acc.any fun e => pointEq e.1 P1) = true
  · rw [if_pos hany] at he
    simp only [List.mem_map] at he
    obtain ⟨e0, he0, heq⟩ := he
    by_cases hm : pointEq e0.1 P1 = true
    · rw [if_pos hm] at heq
      subst heq
      exact mapInsert_matchSelf hn2 hk2
    · rw [if_neg hm] at heq
      subst heq
      exact absurd hpe hm
  · rw [if_neg hany] at he
    rcases List.mem_append.mp he with he | he
    · have hall : ∀ x ∈ acc, ¬ pointEq x.1 P1 = true := by
        intro x hx hcontra
        exact hany (List.any_eq_true.mpr ⟨x, hx, hcontra⟩)
      exact absurd hpe (hall e he)
    · rw [List.mem_singleton] at he
      subst he
      refine ⟨(Point.mk s2 k2, v), ?_,
        pointEq_refl hn2 (validate_key_cartKeys hn2 hk2)⟩
      show (Point.mk s2 k2, v) ∈ mapInsert ([] : List (Point α × β)) (Point.mk s2 k2) v
      rw [show mapInsert ([] : List (Point α × β)) (Point.mk s2 k2) v =
        [(Point.mk s2 k2, v)] from rfl]
      exact List.mem_singleton.mpr rfl

theorem nestedInsert_inner_mono [DecidableEq α] {s1 : Spec α}
    (hn1 : (specKeys s1).Nodup)
    {acc : List (Point α × List (Point α × β))}
    {k1 : Dict α} (hk1 : k1 ∈ cartKeys s1) {EP : Point α} {v : β}
    {k1b : Dict α} (hk1b : k1b ∈ cartKeys s1) {q2 : Point α}
    (hO : ∃ e ∈ acc, pointEq e.1 (Point.mk s1 k1b) = true)
    (hI : ∀ e ∈ acc, pointEq e.1 (Point.mk s1 k1b) = true →
      ∃ e2 ∈ e.2, pointEq e2.1 q2 = true) :
    ∀ e ∈ nestedInsert acc (Point.mk s1 k1) EP v,
      pointEq e.1 (Point.mk s1 k1b) = true →
      ∃ e2 ∈ e.2, pointEq e2.1 q2 = true := by
  intro e he hpe
  unfold nestedInsert at he
  by_cases hany : (acc.any fun e => pointEq e.1 (Point.mk s1 k1)) = true
  · rw [if_pos hany] at he
    simp only [List.mem_map] at he
    obtain ⟨e0, he0, heq⟩ := he
    by_cases hm : pointEq e0.1 (Point.mk s1 k1) = true
    · rw [if_pos hm] at heq
      subst heq
      exact mapInsert_matchMono (hI e0 he0 hpe)
    · rw [if_neg hm] at heq
      subst heq
      exact hI e0 he0 hpe
  · rw [if_neg hany] at he
    rcases List.mem_append.mp he with he | he
    · exact hI e he hpe
    · rw [List.mem_singleton] at he
      subst he
      have hkk : k1 = k1b := pointEq_cartKeys_eq hn1 hk1 hk1b hpe
      subst hkk
      obtain ⟨e0, he0, hpe0⟩ := hO
      exact absurd (List.any_eq_true.mpr ⟨e0, he0, hpe0⟩) hany

theorem stackStep_eval [DecidableEq α] {s1 s2 : Spec α} {m : Map α β}
    (hn1 : (specKeys s1).Nodup) (hn2 : (specKeys s2).Nodup)
    (hdisj : ∀ n ∈ specKeys s2, n ∉ specKeys s1)
    {k1 k2 : Dict α} (hk1 : k1 ∈ cartKeys s1) (hk2 : k2 ∈ cartKeys s2)
    {v : β} (hget : m.get ⟨s1 ++ s2, k1 ++ k2⟩ = some v)
    (acc : List (Point α × List (Point α × β))) :
    stackStep m s2 s1 acc (Point.mk (s1 ++ s2) (k1 ++ k2)) =
      some (nestedInsert acc (Point.mk s1 k1) (Point.mk s2 k2) v) := by
  unfold stackStep
  rw [contract_append_right rfl hn2 hk1 hk2 hdisj,
    contract_append_left rfl hn1 hk1, hget]
  simp only [Option.bind_eq_bind, Option.some_bind, Option.pure_def]

theorem stack_fold_pairs [DecidableEq α] {s1 s2 : Spec α} {m : Map α β}
    (hn1 : (specKeys s1).Nodup) (hn2 : (specKeys s2).Nodup)
    (hdisj : ∀ n ∈ specKeys s2, n ∉ specKeys s1) {f : Dict α → β}
    (hget : ∀ k ∈ cartKeys (s1 ++ s2), m.get ⟨s1 ++ s2, k⟩ = some (f k)) :
    ∀ (prs : List (Dict α × Dict α)),
      (∀ pr ∈ prs, pr.1 ∈ cartKeys s1 ∧ pr.2 ∈ cartKeys s2) →
    ∀ (acc : List (Point α × List (Point α × β))),
      (∀ e ∈ acc, ∃ k1b ∈ cartKeys s1, e.1 = Point.mk s1 k1b ∧
        ∀ e2 ∈ e.2, ∃ k2b ∈ cartKeys s2, e2 = (Point.mk s2 k2b, f (k1b ++ k2b))) →
    ∃ N, List.foldlM (stackStep m s2 s1) acc
        (prs.map fun pr => Point.mk (s1 ++ s2) (pr.1 ++ pr.2)) = some N ∧
      (∀ e ∈ N, ∃ k1b ∈ cartKeys s1, e.1 = Point.mk s1 k1b ∧
        ∀ e2 ∈ e.2, ∃ k2b ∈ cartKeys s2, e2 = (Point.mk s2 k2b, f (k1b ++ k2b))) ∧
      (∀ q : Point α, (∃ e ∈ acc, pointEq e.1 q = true) →
        ∃ e ∈ N, pointEq e.1 q = true) ∧
      (∀ k1b ∈ cartKeys s1, ∀ q2 : Point α,
        (∃ e ∈ acc, pointEq e.1 (Point.mk s1 k1b) = true) →
        (∀ e ∈ acc, pointEq e.1 (Point.mk s1 k1b) = true →
          ∃ e2 ∈ e.2, pointEq e2.1 q2 = true) →
        ∀ e ∈ N, pointEq e.1 (Point.mk s1 k1b) = true →
          ∃ e2 ∈ e.2, pointEq e2.1 q2 = true) ∧
      (∀ pr ∈ prs,
        (∃ e ∈ N, pointEq e.1 (Point.mk s1 pr.1) = true) ∧
        (∀ e ∈ N, pointEq e.1 (Point.mk s1 pr.1) = true →
          ∃ e2 ∈ e.2, pointEq e2.1 (Point.mk s2 pr.2) = true)) := by
  intro prs
  induction prs with
  | nil =>
    intro _ acc hA
    exact ⟨acc, rfl, hA, fun q h => h, fun k1b _ q2 _ hI => hI,
      fun pr hpr => nomatch hpr⟩
  | cons pr rest ih =>
    intro hsub acc hA
    obtain ⟨hk1, hk2⟩ := hsub pr (List.mem_cons_self _ _)
    have hstep := stackStep_eval hn1 hn2 hdisj hk1 hk2
      (hget (pr.1 ++ pr.2) (mem_cartKeys_append hk1 hk2)) acc
    have hA2 := nestedInsert_entries hn1 hn2 hA hk1 hk2
    obtain ⟨N, hfold, hNinv, hNmono, hNpres, hNcov⟩ :=
      ih (fun q hq => hsub q (List.mem_cons_of_mem _ hq)) _ hA2
    refine ⟨N, ?_, hNinv, ?_, ?_, ?_⟩
    · rw [List.map_cons, List.foldlM_cons, hstep]
      simp only [Option.bind_eq_bind, Option.some_bind]
      exact hfold
    · intro q hq
      exact hNmono q (nestedInsert_matchMono hq)
    · intro k1b hk1b q2 hO hI
      refine hNpres k1b hk1b q2 (nestedInsert_matchMono hO) ?_
      exact nestedInsert_inner_mono hn1 hk1 hk1b hO hI
    · intro prb hprb
      rcases List.mem_cons.mp hprb with rfl | hprb2
      · constructor
        · exact hNmono _ (nestedInsert_covers_self hn1 hk1)
        · refine hNpres prb.1 hk1 (Point.mk s2 prb.2) ?_ ?_
          · exact nestedInsert_covers_self hn1 hk1
          · exact nestedInsert_inner_self hn2 hk2
      · exact hNcov prb hprb2

theorem unstackCell_eval [DecidableEq α] {s1 s2 : Spec α} {M1 : Map α (Map α β)}
    (hn2 : (specKeys s2).Nodup) (hdisj : ∀ n ∈ specKeys s2, n ∉ specKeys s1)
    {k1 k2 : Dict α} (hk1 : k1 ∈ cartKeys s1) (hk2 : k2 ∈ cartKeys s2)
    {inner : Map α β} {v : β} {P1 : Point α}
    (hget1 : M1.get P1 = some inner)
    (hget2 : inner.get (Point.mk s2 k2) = some v)
    (acc2 : List (Point α × β)) :
    unstackCell M1 s2 P1 acc2 (Point.mk (s1 ++ s2) (k1 ++ k2)) =
      some (mapInsert acc2 (Point.mk (s1 ++ s2) (k1 ++ k2)) v) := by
  unfold unstackCell
  rw [contract_append_right rfl hn2 hk1 hk2 hdisj, hget1]
  simp only [Option.bind_eq_bind, Option.some_bind]
  rw [hget2]
  simp only [Option.some_bind, Option.pure_def]

theorem unstack_fold_inner [DecidableEq α] {s1 s2 : Spec α} {M1 : Map α (Map α β)}
    (hnS : (specKeys (s1 ++ s2)).Nodup) (hn2 : (specKeys s2).Nodup)
    (hdisj : ∀ n ∈ specKeys s2, n ∉ specKeys s1)
    {k1 : Dict α} (hk1 : k1 ∈ cartKeys s1) {inner : Map α β} {f : Dict α → β}
    {P1 : Point α} (hget1 : M1.get P1 = some inner)
    (hget2 : ∀ k2 ∈ cartKeys s2,
      inner.get (Point.mk s2 k2) = some (f (k1 ++ k2))) :
    ∀ (k2s : List (Dict α)), (∀ k ∈ k2s, k ∈ cartKeys s2) →
    ∀ (acc2 : List (Point α × β)),
      (∀ e ∈ acc2, ∃ kb ∈ cartKeys (s1 ++ s2), e = (Point.mk (s1 ++ s2) kb, f kb)) →
    ∃ d, List.foldlM (unstackCell M1 s2 P1) acc2
        (k2s.map fun k2 => Point.mk (s1 ++ s2) (k1 ++ k2)) = some d ∧
      (∀ e ∈ d, ∃ kb ∈ cartKeys (s1 ++ s2), e = (Point.mk (s1 ++ s2) kb, f kb)) ∧
      (∀ q : Point α, (∃ e ∈ acc2, pointEq e.1 q = true) →
        ∃ e ∈ d, pointEq e.1 q = true) ∧
      (∀ k2 ∈ k2s, ∃ e ∈ d,
        pointEq e.1 (Point.mk (s1 ++ s2) (k1 ++ k2)) = true) := by
  intro k2s
  induction k2s with
  | nil =>
    intro _ acc2 hF
    exact ⟨acc2, rfl, hF, fun q h => h, fun k2 h => nomatch h⟩
  | cons k2 rest ih =>
    intro hsub acc2 hF
    have hk2 : k2 ∈ cartKeys s2 := hsub k2 (List.mem_cons_self _ _)
    have hstep := unstackCell_eval hn2 hdisj hk1 hk2 hget1 (hget2 k2 hk2) acc2
    have hF2 := mapInsert_entries hnS hF (mem_cartKeys_append hk1 hk2)
    obtain ⟨d, hfold, hdinv, hdmono, hdcov⟩ :=
      ih (fun k hk => hsub k (List.mem_cons_of_mem _ hk)) _ hF2
    refine ⟨d, ?_, hdinv, ?_, ?_⟩
    · rw [List.map_cons, List.foldlM_cons, hstep]
      simp only [Option.bind_eq_bind, Option.some_bind]
      exact hfold
    · intro q hq
      exact hdmono q (mapInsert_matchMono hq)
    · intro k2b hk2b
      rcases List.mem_cons.mp hk2b with rfl | hk2b2
      · exact hdmono _ (mapInsert_matchSelf hnS (mem_cartKeys_append hk1 hk2))
      · exact hdcov k2b hk2b2

theorem unstack_fold_outer [DecidableEq α] {s1 s2 : Spec α} {M1 : Map α (Map α β)}
    (hnS : (specKeys (s1 ++ s2)).Nodup) (hn2 : (specKeys s2).Nodup)
    (hdisj : ∀ n ∈ specKeys s2, n ∉ specKeys s1) {f : Dict α → β}
    (hgets : ∀ k1 ∈ cartKeys s1, ∃ inner,
      M1.get (Point.mk s1 k1) = some inner ∧
      ∀ k2 ∈ cartKeys s2, inner.get (Point.mk s2 k2) = some (f (k1 ++ k2))) :
    ∀ (k1s : List (Dict α)), (∀ k ∈ k1s, k ∈ cartKeys s1) →
    ∀ (acc : List (Point α × β)),
      (∀ e ∈ acc, ∃ kb ∈ cartKeys (s1 ++ s2), e = (Point.mk (s1 ++ s2) kb, f kb)) →
    ∃ d, List.foldlM (unstackStep M1 s2 (s1 ++ s2)) acc
        (k1s.map fun k1 => Point.mk s1 k1) = some d ∧
      (∀ e ∈ d, ∃ kb ∈ cartKeys (s1 ++ s2), e = (Point.mk (s1 ++ s2) kb, f kb)) ∧
      (∀ q : Point α, (∃ e ∈ acc, pointEq e.1 q = true) →
        ∃ e ∈ d, pointEq e.1 q = true) ∧
      (∀ k1 ∈ k1s, ∀ k2 ∈ cartKeys s2, ∃ e ∈ d,
        pointEq e.1 (Point.mk (s1 ++ s2) (k1 ++ k2)) = true) := by
  intro k1s
  induction k1s with
  | nil =>
    intro _ acc hF
    exact ⟨acc, rfl, hF, fun q h => h, fun k1 h => nomatch h⟩
  | cons k1 rest ih =>
    intro hsub acc hF
    have hk1 : k1 ∈ cartKeys s1 := hsub k1 (List.mem_cons_self _ _)
    obtain ⟨inner, hget1, hget2⟩ := hgets k1 hk1
    have hexp : expand_point (Point.mk s1 k1) (s1 ++ s2) =
        some ((cartKeys s2).map fun k2 => Point.mk (s1 ++ s2) (k1 ++ k2)) := by
      unfold expand_point
      rw [show (Point.mk s1 k1).pspace = s1 from rfl,
        difference_append_left hn2 hdisj]
      simp only [Option.bind_eq_bind, Option.some_bind]
      rw [points_eq_map hn2]
      rw [mapM_eq_map_of_some (G := fun pe => Point.mk (s1 ++ s2) (k1 ++ pe.key))
        fun pe hpe => ?_]
      · rw [List.map_map]
        rfl
      · obtain ⟨k2, hk2, rfl⟩ := List.mem_map.mp hpe
        exact make_point_cartKeys hnS (mem_cartKeys_append hk1 hk2)
    obtain ⟨d1, hfold1, hd1inv, hd1mono, hd1cov⟩ :=
      unstack_fold_inner hnS hn2 hdisj hk1 hget1 hget2 (cartKeys s2)
        (fun k hk => hk) acc hF
    have hstep : unstackStep M1 s2 (s1 ++ s2) acc (Point.mk s1 k1) = some d1 := by
      unfold unstackStep
      rw [hexp]
      simp only [Option.bind_eq_bind, Option.some_bind]
      exact hfold1
    obtain ⟨d, hfold, hdinv, hdmono, hdcov⟩ :=
      ih (fun k hk => hsub k (List.mem_cons_of_mem _ hk)) d1 hd1inv
    refine ⟨d, ?_, hdinv, ?_, ?_⟩
    · rw [List.map_cons, List.foldlM_cons, hstep]
      simp only [Option.bind_eq_bind, Option.some_bind]
      exact hfold
    · intro q hq
      exact hdmono q (hd1mono q hq)
    · intro k1b hk1b k2 hk2
      rcases List.mem_cons.mp hk1b with rfl | hk1b2
      · exact hdmono _ (hd1cov k2 hk2)
      · exact hdcov k1b hk1b2 k2 hk2

/-! ### Claim C4 -/

/-- C4, counterexample: the claim quantifies over every flat Map on a joined
Space with disjoint names, but when a dimension of S2 has an empty category
list (legal per the data model) and S1 has points, the grouped outer dict
built by `stack_map` stays empty and its final `make_map` raises, so the
composition is an exception rather than a Map equal to `m`.  Here
`m` is the (vacuously total) empty Map over `{'x':[1]} ∪ {'y':[]}`. -/
theorem C4_counterexample :
    validate_map ([("x", [1]), ("y", [])] : Spec Nat)
      ([] : List (Point Nat × Nat)) = true ∧
    union [("x", [1])] [("y", ([] : List Nat))] = some [("x", [1]), ("y", [])] ∧
    stack_map (Map.mk [("x", [1]), ("y", [])] ([] : List (Point Nat × Nat)))
      [("x", [1])] = none := by
  refine ⟨by decide, by decide, by decide⟩

/-- C4, amended: for disjoint-name Spaces S1, S2 where S2's category lists are
non-empty, and any total flat Map `m` over `S1 ∪ S2`, `stack_map(m, S1)`
succeeds, `unstack_map` of it over `S1 ∪ S2` succeeds, and the result is a Map
over `S1 ∪ S2` agreeing with `m` value-for-value at every Point.  Duplicate
category values are allowed: repeated dict writes store the value again under
the same key, so they do not disturb the round trip. -/
theorem C4_stack_unstack_inverse [DecidableEq α] {s1 s2 : Spec α} {m : Map α β}
    (hn1 : (specKeys s1).Nodup) (hn2 : (specKeys s2).Nodup)
    (hdisj : ∀ n ∈ specKeys s2, n ∉ specKeys s1)
    (hne2 : ∀ nv ∈ s2, nv.2 ≠ [])
    (hps : m.pspace = s1 ++ s2) (hm : validate_map (s1 ++ s2) m.map = true) :
    union s1 s2 = some (s1 ++ s2) ∧
    ∃ st res, stack_map m s1 = some st ∧
      unstack_map st (s1 ++ s2) = some res ∧ res.pspace = s1 ++ s2 ∧
      ∀ p ∈ points (s1 ++ s2), res.get p = m.get p := by
  have hnS : (specKeys (s1 ++ s2)).Nodup := by
    rw [specKeys_append]
    exact List.Nodup.append hn1 hn2 fun a ha hb => hdisj a hb ha
  have hs2ne : cartKeys s2 ≠ [] := cartKeys_ne_nil hne2
  refine ⟨union_disjoint hn1 hn2 hdisj, ?_⟩
  by_cases hS1 : cartKeys s1 = []
  · -- a dimension of S1 is empty: everything is vacuous
    have hptsS : points (s1 ++ s2) = [] := by
      rw [points_eq_map hnS, cartKeys_append, hS1]
      rfl
    have hpts1 : points s1 = [] := by
      rw [points_eq_map hn1, hS1]
      rfl
    have hstack : stack_map m s1 =
        some ⟨s1, ([] : List (Point α × Map α β))⟩ := by
      unfold stack_map
      rw [hps, difference_append_left hn2 hdisj]
      simp only [Option.bind_eq_bind, Option.some_bind]
      rw [hptsS]
      simp only [List.foldlM_nil, Option.pure_def, Option.some_bind]
      simp only [List.mapM_nil, Option.pure_def, Option.some_bind]
      unfold make_map validate_map
      rw [hpts1]
      rfl
    have hunstack : unstack_map (⟨s1, []⟩ : Map α (Map α β)) (s1 ++ s2) =
        some ⟨s1 ++ s2, ([] : List (Point α × β))⟩ := by
      unfold unstack_map
      rw [show (⟨s1, []⟩ : Map α (Map α β)).pspace = s1 from rfl,
        difference_append_left hn2 hdisj]
      simp only [Option.bind_eq_bind, Option.some_bind]
      rw [hpts1]
      simp only [List.foldlM_nil, Option.pure_def, Option.some_bind]
      unfold make_map validate_map
      rw [hptsS]
      rfl
    refine ⟨⟨s1, []⟩, ⟨s1 ++ s2, []⟩, hstack, hunstack, rfl, ?_⟩
    intro p hp
    rw [hptsS] at hp
    cases hp
  · -- main case
    have htotal : ∀ k ∈ cartKeys (s1 ++ s2),
        ∃ v, m.get ⟨s1 ++ s2, k⟩ = some v := by
      intro k hk
      have hp : (⟨s1 ++ s2, k⟩ : Point α) ∈ points (s1 ++ s2) := by
        rw [points_eq_map hnS]
        exact List.mem_map.mpr ⟨k, hk, rfl⟩
      simp only [validate_map, List.all_eq_true] at hm
      have hany := hm _ hp
      rw [List.any_eq_true] at hany
      obtain ⟨e2, he2⟩ := Option.isSome_iff_exists.mp (List.find?_isSome.mpr hany)
      refine ⟨e2.2, ?_⟩
      unfold Map.get
      rw [hps, if_pos (spaceEq_refl hnS)]
      simp [mapLookup, he2]
    obtain ⟨k10, hk10⟩ := List.exists_mem_of_ne_nil _ hS1
    obtain ⟨k20, hk20⟩ := List.exists_mem_of_ne_nil _ hs2ne
    obtain ⟨v0, _⟩ := htotal (k10 ++ k20) (mem_cartKeys_append hk10 hk20)
    set f : Dict α → β := fun k => (m.get ⟨s1 ++ s2, k⟩).getD v0 with hfdef
    have hf : ∀ k ∈ cartKeys (s1 ++ s2), m.get ⟨s1 ++ s2, k⟩ = some (f k) := by
      intro k hk
      obtain ⟨v, hv⟩ := htotal k hk
      rw [hfdef]
      simp [hv]
    -- the enumeration of the joined space as a traversal of key pairs
    have hpts : points (s1 ++ s2) =
        ((cartKeys s1).flatMap fun k1 => (cartKeys s2).map fun k2 => (k1, k2)).map
          fun pr => Point.mk (s1 ++ s2) (pr.1 ++ pr.2) := by
      rw [points_eq_map hnS, cartKeys_append, List.map_flatMap, List.map_flatMap]
      refine List.flatMap_congr fun k1 _ => ?_
      rw [List.map_map, List.map_map]
      rfl
    have hsubprs : ∀ pr ∈ ((cartKeys s1).flatMap fun k1 =>
        (cartKeys s2).map fun k2 => (k1, k2)),
        pr.1 ∈ cartKeys s1 ∧ pr.2 ∈ cartKeys s2 := by
      intro pr hpr
      obtain ⟨k1, hk1, hpr2⟩ := List.mem_flatMap.mp hpr
      obtain ⟨k2, hk2, rfl⟩ := List.mem_map.mp hpr2
      exact ⟨hk1, hk2⟩
    have hmemprs : ∀ k1 ∈ cartKeys s1, ∀ k2 ∈ cartKeys s2,
        ((k1, k2) : Dict α × Dict α) ∈ ((cartKeys s1).flatMap fun k1 =>
          (cartKeys s2).map fun k2 => (k1, k2)) := by
      intro k1 hk1 k2 hk2
      exact List.mem_flatMap.mpr ⟨k1, hk1, List.mem_map.mpr ⟨k2, hk2, rfl⟩⟩
    obtain ⟨N, hfold, hNinv, hNmono, hNpres, hNcov⟩ :=
      stack_fold_pairs hn1 hn2 hdisj hf
        ((cartKeys s1).flatMap fun k1 => (cartKeys s2).map fun k2 => (k1, k2))
        hsubprs [] (fun e he => nomatch he)
    have hOC : ∀ k1 ∈ cartKeys s1,
        ∃ e ∈ N, pointEq e.1 (Point.mk s1 k1) = true := by
      intro k1 hk1
      exact (hNcov (k1, k20) (hmemprs k1 hk1 k20 hk20)).1
    have hIC : ∀ k1 ∈ cartKeys s1, ∀ k2 ∈ cartKeys s2, ∀ e ∈ N,
        pointEq e.1 (Point.mk s1 k1) = true →
        ∃ e2 ∈ e.2, pointEq e2.1 (Point.mk s2 k2) = true := by
      intro k1 hk1 k2 hk2
      exact (hNcov (k1, k2) (hmemprs k1 hk1 k2 hk2)).2
    have hmkinner : ∀ e ∈ N, make_map s2 e.2 = some ⟨s2, e.2⟩ := by
      intro e he
      obtain ⟨k1b, hk1b, hkey, hinner⟩ := hNinv e he
      have hval : validate_map s2 e.2 = true := by
        simp only [validate_map, List.all_eq_true]
        intro p hp
        rw [points_eq_map hn2] at hp
        obtain ⟨k2, hk2, rfl⟩ := List.mem_map.mp hp
        rw [List.any_eq_true]
        refine hIC k1b hk1b k2 hk2 e he ?_
        rw [hkey]
        exact pointEq_refl hn1 (validate_key_cartKeys hn1 hk1b)
      unfold make_map
      rw [if_pos hval]
    have hstack : stack_map m s1 =
        some ⟨s1, N.map fun e => (e.1, Map.mk s2 e.2)⟩ := by
      unfold stack_map
      rw [hps, difference_append_left hn2 hdisj]
      simp only [Option.bind_eq_bind, Option.some_bind]
      rw [hpts, hfold]
      simp only [Option.some_bind]
      rw [mapM_eq_map_of_some (G := fun e => (e.1, Map.mk s2 e.2)) ?hmm]
      case hmm =>
        intro e he
        rw [hmkinner e he]
        rfl
      simp only [Option.some_bind]
      unfold make_map
      rw [if_pos ?hval1]
      case hval1 =>
        simp only [validate_map, List.all_eq_true]
        intro p hp
        rw [points_eq_map hn1] at hp
        obtain ⟨k1, hk1, rfl⟩ := List.mem_map.mp hp
        rw [List.any_eq_true]
        obtain ⟨e, he, hpe⟩ := hOC k1 hk1
        exact ⟨(e.1, Map.mk s2 e.2), List.mem_map.mpr ⟨e, he, rfl⟩, hpe⟩
    have hgets : ∀ k1 ∈ cartKeys s1, ∃ inner,
        (⟨s1, N.map fun e => (e.1, Map.mk s2 e.2)⟩ : Map α (Map α β)).get
          (Point.mk s1 k1) = some inner ∧
        ∀ k2 ∈ cartKeys s2,
          inner.get (Point.mk s2 k2) = some (f (k1 ++ k2)) := by
      intro k1 hk1
      have hcovN2 : ∃ e2 ∈ (N.map fun e => (e.1, Map.mk s2 e.2)),
          pointEq e2.1 (Point.mk s1 k1) = true := by
        obtain ⟨e, he, hpe⟩ := hOC k1 hk1
        exact ⟨(e.1, Map.mk s2 e.2), List.mem_map.mpr ⟨e, he, rfl⟩, hpe⟩
      obtain ⟨E, hfind, hmemE, hpeE⟩ := find?_mem_of_exists hcovN2
      obtain ⟨e, he, hEeq⟩ := List.mem_map.mp hmemE
      obtain ⟨k1b, hk1b, hkey, hinner⟩ := hNinv e he
      have hpe1 : pointEq e.1 (Point.mk s1 k1) = true := by
        rw [← hEeq] at hpeE
        exact hpeE
      have hpe1b : pointEq (Point.mk s1 k1b) (Point.mk s1 k1) = true := by
        rw [← hkey]
        exact hpe1
      have hk1bk : k1b = k1 := pointEq_cartKeys_eq hn1 hk1b hk1 hpe1b
      refine ⟨Map.mk s2 e.2, ?_, ?_⟩
      · unfold Map.get
        rw [if_pos (spaceEq_refl hn1)]
        unfold mapLookup
        rw [hfind, ← hEeq]
        rfl
      · intro k2 hk2
        unfold Map.get
        rw [if_pos (spaceEq_refl hn2)]
        have h5 := mapLookup_entries hn2 hinner hk2 (hIC k1 hk1 k2 hk2 e he hpe1)
        rw [hk1bk] at h5
        exact h5
    obtain ⟨D, hDfold, hDinv, hDmono, hDcov⟩ :=
      unstack_fold_outer hnS hn2 hdisj hgets (cartKeys s1) (fun k hk => hk)
        [] (fun e he => nomatch he)
    have hunstack : unstack_map (⟨s1, N.map fun e => (e.1, Map.mk s2 e.2)⟩ :
        Map α (Map α β)) (s1 ++ s2) = some ⟨s1 ++ s2, D⟩ := by
      unfold unstack_map
      rw [show (⟨s1, N.map fun e => (e.1, Map.mk s2 e.2)⟩ :
          Map α (Map α β)).pspace = s1 from rfl,
        difference_append_left hn2 hdisj]
      simp only [Option.bind_eq_bind, Option.some_bind]
      rw [points_eq_map hn1, hDfold]
      simp only [Option.some_bind]
      unfold make_map
      rw [if_pos ?hvalD]
      case hvalD =>
        simp only [validate_map, List.all_eq_true]
        intro p hp
        rw [points_eq_map hnS] at hp
        obtain ⟨k, hk, rfl⟩ := List.mem_map.mp hp
        rw [List.any_eq_true]
        rw [cartKeys_append] at hk
        obtain ⟨k1, hk1, hk2m⟩ := List.mem_flatMap.mp hk
        obtain ⟨k2, hk2, rfl⟩ := List.mem_map.mp hk2m
        exact hDcov k1 hk1 k2 hk2
    refine ⟨_, _, hstack, hunstack, rfl, ?_⟩
    intro p hp
    rw [points_eq_map hnS] at hp
    obtain ⟨k, hk, rfl⟩ := List.mem_map.mp hp
    have hres : (⟨s1 ++ s2, D⟩ : Map α β).get (Point.mk (s1 ++ s2) k) =
        some (f k) := by
      unfold Map.get
      rw [if_pos (spaceEq_refl hnS)]
      refine mapLookup_entries hnS hDinv hk ?_
      rw [cartKeys_append] at hk
      obtain ⟨k1, hk1, hk2m⟩ := List.mem_flatMap.mp hk
      obtain ⟨k2, hk2, rfl⟩ := List.mem_map.mp hk2m
      exact hDcov k1 hk1 k2 hk2
    rw [hres, hf k hk]

/-- C4 witness: the amended stack/unstack inverse law evaluated on a concrete
2×1 Map over `{'x':[0,1]} ∪ {'y':[5]}`. -/
theorem C4_stack_unstack_inverse_witness :
    ((specKeys ([("x", [0, 1])] : Spec Nat)).Nodup ∧
      (specKeys ([("y", [5])] : Spec Nat)).Nodup ∧
      (∀ n ∈ specKeys ([("y", [5])] : Spec Nat),
        n ∉ specKeys ([("x", [0, 1])] : Spec Nat)) ∧
      (∀ nv ∈ ([("y", [5])] : Spec Nat), nv.2 ≠ []) ∧
      (Map.mk ([("x", [0, 1]), ("y", [5])]) [
        (⟨[("x", [0, 1]), ("y", [5])], [("x", 0), ("y", 5)]⟩, 7),
        (⟨[("x", [0, 1]), ("y", [5])], [("x", 1), ("y", 5)]⟩, 8)] :
          Map Nat Nat).pspace = [("x", [0, 1])] ++ [("y", [5])] ∧
      validate_map ([("x", [0, 1])] ++ [("y", [5])] : Spec Nat)
        [(⟨[("x", [0, 1]), ("y", [5])], [("x", 0), ("y", 5)]⟩, 7),
         (⟨[("x", [0, 1]), ("y", [5])], [("x", 1), ("y", 5)]⟩, 8)] = true) ∧
    (union [("x", [0, 1])] [("y", ([5] : List Nat))] =
        some ([("x", [0, 1])] ++ [("y", [5])]) ∧
      ∃ st res, stack_map (Map.mk ([("x", [0, 1]), ("y", [5])]) [
          (⟨[("x", [0, 1]), ("y", [5])], [("x", 0), ("y", 5)]⟩, 7),
          (⟨[("x", [0, 1]), ("y", [5])], [("x", 1), ("y", 5)]⟩, 8)] :
            Map Nat Nat) [("x", [0, 1])] = some st ∧
        unstack_map st ([("x", [0, 1])] ++ [("y", [5])]) = some res ∧
        res.pspace = [("x", [0, 1])] ++ [("y", [5])] ∧
        ∀ p ∈ points ([("x", [0, 1])] ++ [("y", [5])] : Spec Nat),
          res.get p = (Map.mk ([("x", [0, 1]), ("y", [5])]) [
            (⟨[("x", [0, 1]), ("y", [5])], [("x", 0), ("y", 5)]⟩, 7),
            (⟨[("x", [0, 1]), ("y", [5])], [("x", 1), ("y", 5)]⟩, 8)] :
              Map Nat Nat).get p) :=
  ⟨⟨by decide, by decide, by decide, by decide, by decide, by decide⟩,
    C4_stack_unstack_inverse (by decide) (by decide) (by decide) (by decide)
      (by decide) (by decide)⟩

/-! ### Claim C9 -/

theorem specKeys_graph {names : List String} {g : String → List α} :
    specKeys (names.map fun n => (n, g n)) = names := by
  simp [specKeys, List.map_map, Function.comp_def]

theorem map_graph_filter {s : Spec α} (hn : (specKeys s).Nodup)
    (p : String → Bool) :
    (((specKeys s).filter p).map fun k => (k, (s.lookup k).getD [])) =
      s.filter fun nv => p nv.1 := by
  induction s with
  | nil => rfl
  | cons nv t ih =>
    simp only [specKeys, List.map_cons, List.nodup_cons] at hn
    have htail : ∀ k ∈ (List.map Prod.fst t).filter p,
        (k, ((nv :: t).lookup k).getD []) = (k, (t.lookup k).getD []) := by
      intro k hk
      have hkt : k ∈ List.map Prod.fst t := (List.mem_filter.mp hk).1
      have hne : (k == nv.1) = false := by
        refine beq_eq_false_iff_ne.mpr fun hEq => hn.1 ?_
        exact hEq ▸ hkt
      rw [lookup_cons_ne (e := nv) hne]
    have ih2 := ih hn.2
    simp only [specKeys] at ih2
    by_cases hp : p nv.1 = true
    · rw [show specKeys (nv :: t) = nv.1 :: List.map Prod.fst t from rfl,
        List.filter_cons_of_pos hp, List.map_cons,
        List.map_congr_left htail, ih2,
        show (nv :: t).filter (fun nv => p nv.1) =
          nv :: t.filter (fun nv => p nv.1) from List.filter_cons_of_pos hp]
      congr 1
      obtain ⟨n, l⟩ := nv
      simp [List.lookup]
    · rw [show specKeys (nv :: t) = nv.1 :: List.map Prod.fst t from rfl,
        List.filter_cons_of_neg (by simpa using hp),
        show (nv :: t).filter (fun nv => p nv.1) = t.filter (fun nv => p nv.1)
          from List.filter_cons_of_neg (by simpa using hp),
        List.map_congr_left htail, ih2]

theorem specKeys_filter {s : Spec α} (p : String → Bool) :
    specKeys (s.filter fun nv => p nv.1) = (specKeys s).filter p := by
  induction s with
  | nil => rfl
  | cons nv t ih =>
    by_cases hp : p nv.1 = true
    · rw [show (nv :: t).filter (fun nv => p nv.1) = nv :: t.filter (fun nv => p nv.1)
          from List.filter_cons_of_pos hp,
        show specKeys (nv :: t.filter fun nv => p nv.1) =
          nv.1 :: specKeys (t.filter fun nv => p nv.1) from rfl,
        show specKeys (nv :: t) = nv.1 :: specKeys t from rfl,
        List.filter_cons_of_pos hp, ih]
    · rw [show (nv :: t).filter (fun nv => p nv.1) = t.filter (fun nv => p nv.1)
          from List.filter_cons_of_neg hp,
        show specKeys (nv :: t) = nv.1 :: specKeys t from rfl,
        List.filter_cons_of_neg hp, ih]

theorem cartKeys_filter {s : Spec α} {kp : Dict α} (hk : kp ∈ cartKeys s)
    (p : String → Bool) :
    kp.filter (fun en => p en.1) ∈ cartKeys (s.filter fun nv => p nv.1) := by
  induction s generalizing kp with
  | nil =>
    simp only [cartKeys, List.mem_singleton] at hk
    subst hk
    simp [cartKeys]
  | cons hd t ih =>
    obtain ⟨n, cats⟩ := hd
    obtain ⟨c, hc, kt, hkt, rfl⟩ := mem_cartKeys_cons.mp hk
    by_cases hp : p n = true
    · rw [show ((n, cats) :: t).filter (fun nv => p nv.1) =
          (n, cats) :: t.filter (fun nv => p nv.1)
          from List.filter_cons_of_pos hp,
        show ((n, c) :: kt).filter (fun en => p en.1) =
          (n, c) :: kt.filter (fun en => p en.1)
          from List.filter_cons_of_pos hp]
      exact mem_cartKeys_cons.mpr ⟨c, hc, kt.filter (fun en => p en.1), ih hkt, rfl⟩
    · rw [show ((n, cats) :: t).filter (fun nv => p nv.1) =
          t.filter (fun nv => p nv.1) from List.filter_cons_of_neg hp,
        show ((n, c) :: kt).filter (fun en => p en.1) =
          kt.filter (fun en => p en.1) from List.filter_cons_of_neg hp]
      exact ih hkt

theorem lookup_filter_true {l : List (String × σ)} {p : String → Bool}
    {n : String} (hp : p n = true) :
    (l.filter fun en => p en.1).lookup n = l.lookup n := by
  induction l with
  | nil => rfl
  | cons e t ih =>
    by_cases hpe : p e.1 = true
    · rw [show (e :: t).filter (fun en => p en.1) =
          e :: t.filter (fun en => p en.1) from List.filter_cons_of_pos hpe]
      by_cases hb : (n == e.1) = true
      · simp [List.lookup, hb]
      · rw [lookup_cons_ne (Bool.eq_false_iff.mpr hb),
          lookup_cons_ne (Bool.eq_false_iff.mpr hb), ih]
    · rw [show (e :: t).filter (fun en => p en.1) =
          t.filter (fun en => p en.1) from List.filter_cons_of_neg hpe]
      have hb : (n == e.1) = false := by
        refine beq_eq_false_iff_ne.mpr fun hEq => ?_
        exact hpe (hEq ▸ hp)
      rw [lookup_cons_ne hb, ih]

/-- C9 (modelled from the spec — `point_region` is imported by
`graph_traversal.py` but missing from `param_space.py`): for every Space with
distinct dimension names and every partial assignment over a subset of its
dimensions with values from those dimensions' categories, `point_region`
succeeds and produces exactly the Points of the Space consistent with the
partial assignment: every produced Point agrees with the partial key and is
one of the Space's Points, and every Point of the Space consistent with the
partial key is produced (up to `Point.__eq__`). -/
theorem C9_point_region [DecidableEq α] {s : Spec α} {pkey : Dict α}
    (hn : (specKeys s).Nodup) (hpknd : (pkey.map Prod.fst).Nodup)
    (hsubn : ∀ n ∈ pkey.map Prod.fst, n ∈ specKeys s)
    (hvals : ∀ e ∈ pkey, ∃ cats, s.lookup e.1 = some cats ∧ e.2 ∈ cats) :
    ∃ qs, point_region s pkey = some qs ∧
      (∀ q ∈ qs, (∀ e ∈ pkey, q.key.lookup e.1 = some e.2) ∧
        ∃ p ∈ points s, pointEq q p = true) ∧
      (∀ p ∈ points s, (∀ e ∈ pkey, p.key.lookup e.1 = some e.2) →
        ∃ q ∈ qs, pointEq q p = true) := by
  have hsubspace : subspace s (pkey.map Prod.fst) =
      some ((pkey.map Prod.fst).map fun n => (n, (s.lookup n).getD [])) := by
    unfold subspace
    rw [if_pos]
    rw [List.all_eq_true]
    intro n hnm
    simpa using hsubn n hnm
  have hvalpk : validate_key ((pkey.map Prod.fst).map fun n =>
      (n, (s.lookup n).getD [])) pkey = true := by
    simp only [validate_key, List.all_eq_true]
    intro nv hnv
    obtain ⟨n, hnm, rfl⟩ := List.mem_map.mp hnv
    obtain ⟨v, hv⟩ := Option.isSome_iff_exists.mp (lookup_isSome_iff.mpr hnm)
    obtain ⟨cats, hcats, hmem⟩ := hvals (n, v) (lookup_mem hv)
    rw [hv, hcats]
    simpa using hmem
  have hmkp : make_point ((pkey.map Prod.fst).map fun n =>
      (n, (s.lookup n).getD [])) pkey =
      some ⟨(pkey.map Prod.fst).map fun n => (n, (s.lookup n).getD []), pkey⟩ := by
    unfold make_point
    rw [if_pos hvalpk]
  have hdiff : difference s ((pkey.map Prod.fst).map fun n =>
      (n, (s.lookup n).getD [])) =
      some (s.filter fun nv => decide (nv.1 ∉ pkey.map Prod.fst)) := by
    have hint : (intersection s ((pkey.map Prod.fst).map fun n =>
        (n, (s.lookup n).getD []))).isSome = true := by
      unfold intersection
      rw [if_pos]
      · rfl
      · rw [List.all_eq_true]
        intro k hk
        have hk2 : k ∈ specKeys ((pkey.map Prod.fst).map fun n =>
            (n, (s.lookup n).getD [])) := by simpa using (List.mem_filter.mp hk).2
        rw [specKeys_graph] at hk2
        rw [lookup_map_graph hk2]
        exact listSetEq_refl
    unfold difference
    rw [if_pos hint, specKeys_graph, map_graph_filter hn]
  have hnE : (specKeys (s.filter fun nv =>
      decide (nv.1 ∉ pkey.map Prod.fst))).Nodup := by
    rw [specKeys_filter (fun k => decide (k ∉ pkey.map Prod.fst))]
    exact hn.filter _
  have hvalkey : ∀ ke ∈ cartKeys (s.filter fun nv =>
      decide (nv.1 ∉ pkey.map Prod.fst)), validate_key s (pkey ++ ke) = true := by
    intro ke hke
    simp only [validate_key, List.all_eq_true]
    intro nv hnv
    by_cases hmem : nv.1 ∈ pkey.map Prod.fst
    · rw [lookup_append_left hmem]
      obtain ⟨v, hv⟩ := Option.isSome_iff_exists.mp (lookup_isSome_iff.mpr hmem)
      obtain ⟨cats, hcats, hvmem⟩ := hvals (nv.1, v) (lookup_mem hv)
      rw [lookup_of_mem_nodup hn hnv] at hcats
      cases hcats
      rw [hv]
      simpa using hvmem
    · rw [lookup_append_right hmem]
      have hnvE : nv ∈ s.filter fun nv => decide (nv.1 ∉ pkey.map Prod.fst) :=
        List.mem_filter.mpr ⟨hnv, by simpa using hmem⟩
      obtain ⟨c, hc, hl⟩ := cartKeys_lookup hnE hke hnvE
      rw [hl]
      simpa using hc
  have hexp : expand_point ⟨(pkey.map Prod.fst).map fun n =>
      (n, (s.lookup n).getD []), pkey⟩ s =
      some ((cartKeys (s.filter fun nv =>
        decide (nv.1 ∉ pkey.map Prod.fst))).map fun ke =>
          Point.mk s (pkey ++ ke)) := by
    unfold expand_point
    rw [show (⟨(pkey.map Prod.fst).map fun n => (n, (s.lookup n).getD []),
        pkey⟩ : Point α).pspace =
        (pkey.map Prod.fst).map fun n => (n, (s.lookup n).getD []) from rfl, hdiff]
    simp only [Option.bind_eq_bind, Option.some_bind]
    rw [points_eq_map hnE]
    rw [mapM_eq_map_of_some (G := fun pe => Point.mk s (pkey ++ pe.key))
      fun pe hpe => ?_]
    · rw [List.map_map]
      rfl
    · obtain ⟨ke, hke, rfl⟩ := List.mem_map.mp hpe
      unfold make_point
      rw [if_pos (hvalkey ke hke)]
  refine ⟨(cartKeys (s.filter fun nv =>
      decide (nv.1 ∉ pkey.map Prod.fst))).map fun ke =>
        Point.mk s (pkey ++ ke), ?_, ?_, ?_⟩
  · unfold point_region
    rw [hsubspace]
    simp only [Option.bind_eq_bind, Option.some_bind]
    rw [hmkp]
    simp only [Option.some_bind]
    exact hexp
  · intro q hq
    obtain ⟨ke, hke, rfl⟩ := List.mem_map.mp hq
    constructor
    · intro e he
      rw [show (Point.mk s (pkey ++ ke)).key = pkey ++ ke from rfl,
        lookup_append_left (List.mem_map.mpr ⟨e, he, rfl⟩),
        lookup_of_mem_nodup hpknd he]
    · have hfeed : ∀ nv ∈ s, ∃ v ∈ nv.2,
          (Point.mk s (pkey ++ ke)).key.lookup nv.1 = some v :=
        fun nv hnv => validate_key_lookup (hvalkey ke hke) hnv
      obtain ⟨kfull, hkfull, hmatch⟩ := cartKeys_complete hn hfeed
      refine ⟨Point.mk s kfull, by
        rw [points_eq_map hn]; exact List.mem_map.mpr ⟨kfull, hkfull, rfl⟩, ?_⟩
      rw [pointEq_iff]
      refine ⟨spaceEq_refl hn, fun nv hnv => ?_⟩
      obtain ⟨v, _, hv⟩ := hfeed nv hnv
      exact ⟨v, hv, (hmatch nv hnv).trans hv⟩
  · intro p hp hcons
    rw [points_eq_map hn] at hp
    obtain ⟨kp, hkp, rfl⟩ := List.mem_map.mp hp
    refine ⟨Point.mk s (pkey ++ kp.filter fun en =>
      decide (en.1 ∉ pkey.map Prod.fst)), ?_, ?_⟩
    · exact List.mem_map.mpr ⟨kp.filter fun en =>
        decide (en.1 ∉ pkey.map Prod.fst),
        cartKeys_filter hkp fun n => decide (n ∉ pkey.map Prod.fst), rfl⟩
    · rw [pointEq_iff]
      refine ⟨spaceEq_refl hn, fun nv hnv => ?_⟩
      by_cases hmem : nv.1 ∈ pkey.map Prod.fst
      · obtain ⟨e, he, hfst⟩ := List.mem_map.mp hmem
        refine ⟨e.2, ?_, ?_⟩
        · rw [show (Point.mk s (pkey ++ kp.filter fun en =>
              decide (en.1 ∉ pkey.map Prod.fst))).key = pkey ++ kp.filter
              (fun en => decide (en.1 ∉ pkey.map Prod.fst)) from rfl,
            lookup_append_left hmem, ← hfst, lookup_of_mem_nodup hpknd he]
        · rw [show (Point.mk s kp).key = kp from rfl, ← hfst]
          exact hcons e he
      · obtain ⟨c, _, hc⟩ := cartKeys_lookup hn hkp hnv
        refine ⟨c, ?_, hc⟩
        rw [show (Point.mk s (pkey ++ kp.filter fun en =>
            decide (en.1 ∉ pkey.map Prod.fst))).key = pkey ++ kp.filter
            (fun en => decide (en.1 ∉ pkey.map Prod.fst)) from rfl,
          lookup_append_right hmem,
          lookup_filter_true (p := fun n => decide (n ∉ pkey.map Prod.fst))
            (by simpa using hmem)]
        exact hc

/-- C9 witness: `point_region` over `{'x':[0,1],'y':[5,6]}` with the partial
key `{'y': 6}`. -/
theorem C9_point_region_witness :
    ((specKeys ([("x", [0, 1]), ("y", [5, 6])] : Spec Nat)).Nodup ∧
      (([("y", 6)] : Dict Nat).map Prod.fst).Nodup ∧
      (∀ n ∈ ([("y", 6)] : Dict Nat).map Prod.fst,
        n ∈ specKeys ([("x", [0, 1]), ("y", [5, 6])] : Spec Nat)) ∧
      (∀ e ∈ ([("y", 6)] : Dict Nat), ∃ cats,
        ([("x", [0, 1]), ("y", [5, 6])] : Spec Nat).lookup e.1 = some cats ∧
        e.2 ∈ cats)) ∧
    ∃ qs, point_region ([("x", [0, 1]), ("y", [5, 6])] : Spec Nat) [("y", 6)] =
        some qs ∧
      (∀ q ∈ qs, (∀ e ∈ ([("y", 6)] : Dict Nat),
          q.key.lookup e.1 = some e.2) ∧
        ∃ p ∈ points ([("x", [0, 1]), ("y", [5, 6])] : Spec Nat),
          pointEq q p = true) ∧
      (∀ p ∈ points ([("x", [0, 1]), ("y", [5, 6])] : Spec Nat),
        (∀ e ∈ ([("y", 6)] : Dict Nat), p.key.lookup e.1 = some e.2) →
        ∃ q ∈ qs, pointEq q p = true) :=
  ⟨⟨by decide, by decide, by decide, by decide⟩,
    C9_point_region (by decide) (by decide) (by decide) (by decide)⟩

end ParamSpaceLib
